import Mathlib

/-!
Verification of the flattening/projection logic of `igvf_dump_metadata.py`.

The script fetches JSON entities from a remote store, projects configured
field sets into row-aligned columns (`get_props_from_ids`), resolves link
fields to identifier strings (`get_link_prop_ids_from_ids`), normalizes
empty audit values (`reset_empty_audits`), and assembles styled tables
(`output_df`, `status_color`, `audit_color`).

The embedding models Python JSON values as `PyVal`, fetched entities as
key-value records, and the remote call as an explicit function
`String -> Except String Entity` (an `Except.error` models a raised
transport error from `requests.get(...).json()`; the script has no
try/except, so errors propagate).  The per-call fetch memoization dict
`obj_json_dict` is threaded explicitly, and the list of identifiers that
were actually passed to the remote call is recorded as a trace so that
memoization behaviour is observable.
-/

/-- Python JSON-ish value: None, bool, number, string, list, or object. -/
inductive PyVal where
  | none
  | bool (b : Bool)
  | num  (n : Int)
  | str  (s : String)
  | list (xs : List PyVal)
  | dict (kvs : List (String × PyVal))

mutual

/-- Python `==` on `PyVal` (structural; the script only ever compares
values of like shape, so cross-type numeric coercions are not modelled). -/
def pyEq : PyVal → PyVal → Bool
  | .none, .none => true
  | .bool a, .bool b => a == b
  | .num a, .num b => a == b
  | .str a, .str b => a == b
  | .list xs, .list ys => pyEqList xs ys
  | .dict xs, .dict ys => pyEqKVs xs ys
  | _, _ => false

/-- Elementwise Python `==` on lists. -/
def pyEqList : List PyVal → List PyVal → Bool
  | [], [] => true
  | x :: xs, y :: ys => pyEq x y && pyEqList xs ys
  | _, _ => false

/-- Elementwise Python `==` on objects (insertion order sensitive; the
script never compares objects, this case is present for totality). -/
def pyEqKVs : List (String × PyVal) → List (String × PyVal) → Bool
  | [], [] => true
  | kv1 :: xs, kv2 :: ys => kv1.1 == kv2.1 && pyEq kv1.2 kv2.2 && pyEqKVs xs ys
  | _, _ => false

end

/-- A fetched entity record: the JSON object returned by the remote store. -/
abbrev Entity := List (String × PyVal)

/-- Python truthiness on `PyVal` (`not x` in the source negates this). -/
def PyVal.isTruthy : PyVal → Bool
  | .none => false
  | .bool b => b
  | .num n => n != 0
  | .str s => !s.data.isEmpty
  | .list xs => !xs.isEmpty
  | .dict kvs => !kvs.isEmpty

/-- Python `obj_json.get(p)`: the value at key `p`, or None when absent. -/
def Entity.getD (e : Entity) (k : String) : PyVal :=
  match e.find? (fun kv => kv.1 == k) with
  | some kv => kv.2
  | Option.none => PyVal.none

/-- Python `s.split(', ')` on the character list: greedy left-to-right
splitting at every occurrence of the two-character separator. -/
def splitCS : List Char → List Char → List (List Char)
  | [], cur => [cur.reverse]
  | [c], cur => [(c :: cur).reverse]
  | c1 :: c2 :: rest, cur =>
    if c1 = ',' ∧ c2 = ' ' then cur.reverse :: splitCS rest []
    else splitCS (c2 :: rest) (c1 :: cur)

/-- Python `obj_id.split(', ')`. -/
def pySplitCS (s : String) : List String :=
  (splitCS s.data []).map (fun cs => String.mk cs)

/-- Python `sep.join(xs)`. -/
def pyJoin (sep : String) : List String → String
  | [] => ""
  | [x] => x
  | x :: y :: rest => x ++ sep ++ pyJoin sep (y :: rest)

/-- Python `s.endswith(suf)`. -/
def pyEndsWith (s suf : String) : Bool :=
  List.isSuffixOf suf.data s.data

/-- Columns under construction: `defaultdict(list)` keyed by column name,
in key-insertion order. -/
abbrev PropsDict := List (String × List PyVal)

/-- Python `props_dict[k].append(v)` on a `defaultdict(list)`: extend the
column when the key exists, otherwise create it holding `[v]`. -/
def appendProp (d : PropsDict) (k : String) (v : PyVal) : PropsDict :=
  if d.any (fun kv => kv.1 == k) then
    d.map (fun kv => if kv.1 == k then (kv.1, kv.2 ++ [v]) else kv)
  else
    d ++ [(k, [v])]

/-- One `for p in prop_fields: props_dict[keyFn p].append(valFn p)` loop. -/
def appendRow (d : PropsDict) (keyFn : String → String) (valFn : String → PyVal) :
    List String → PropsDict
  | [] => d
  | p :: ps => appendRow (appendProp d (keyFn p) (valFn p)) keyFn valFn ps

/-- The remote call `requests.get(url + id, auth=auth).json()`: either the
JSON object of the entity or a raised transport error (the script never
catches exceptions, so an error aborts the enclosing call). -/
abbrev Fetch := String → Except String Entity

/-- The per-call memoization dict `obj_json_dict`. -/
abbrev Cache := List (String × Entity)

/-- Python `obj_json_dict.get(obj_id)`. -/
def cacheLookup (c : Cache) (i : String) : Option Entity :=
  (c.find? (fun kv => kv.1 == i)).map (fun kv => kv.2)

/-- Lines 94-98 / 107-111 of the source: take the entity from
`obj_json_dict` when present, otherwise fetch it and store it.  The third
component records the identifiers actually passed to the remote call. -/
def cachedFetch (f : Fetch) (c : Cache) (i : String) :
    Except String (Entity × Cache × List String) :=
  match cacheLookup c i with
  | some e => Except.ok (e, c, [])
  | Option.none =>
    match f i with
    | Except.ok e => Except.ok (e, c ++ [(i, e)], [i])
    | Except.error err => Except.error err

/-- Inner loop of the multi-identifier branch (lines 106-113): build
`p_list` for one field `p` over the sub-identifiers of the row. -/
def procSubIds (f : Fetch) (p : String) (c : Cache) :
    List String → Except String (List PyVal × Cache × List String)
  | [] => Except.ok ([], c, [])
  | i :: rest =>
    match cachedFetch f c i with
    | Except.error e => Except.error e
    | Except.ok (ent, c1, t1) =>
      match procSubIds f p c1 rest with
      | Except.error e => Except.error e
      | Except.ok (vs, c2, t2) => Except.ok (Entity.getD ent p :: vs, c2, t1 ++ t2)

/-- Outer loop of the multi-identifier branch (lines 104-114): one row with
several comma-separated identifiers, one appended list per field. -/
def procMultiFields (f : Fetch) (subids : List String) (pre : String) (d : PropsDict)
    (c : Cache) : List String → Except String (PropsDict × Cache × List String)
  | [] => Except.ok (d, c, [])
  | p :: ps =>
    match procSubIds f p c subids with
    | Except.error e => Except.error e
    | Except.ok (vs, c1, t1) =>
      match procMultiFields f subids pre (appendProp d (pre ++ "." ++ p) (PyVal.list vs)) c1 ps with
      | Except.error e => Except.error e
      | Except.ok (d2, c2, t2) => Except.ok (d2, c2, t1 ++ t2)

/-- The main loop of `get_props_from_ids` (lines 87-114), one iteration per
input element, threading `props_dict`, `obj_json_dict` and the fetch trace. -/
def procIds (f : Fetch) (fields : List String) (pre : String) :
    List (Option String) → PropsDict → Cache →
    Except String (PropsDict × Cache × List String)
  | [], d, c => Except.ok (d, c, [])
  | Option.none :: rest, d, c =>
    procIds f fields pre rest (appendRow d (fun p => pre ++ "." ++ p) (fun _ => PyVal.none) fields) c
  | some s :: rest, d, c =>
    if (pySplitCS s).length == 1 then
      match cachedFetch f c s with
      | Except.error e => Except.error e
      | Except.ok (ent, c1, t1) =>
        match procIds f fields pre rest
            (appendRow d (fun p => pre ++ "." ++ p) (fun p => Entity.getD ent p) fields) c1 with
        | Except.error e => Except.error e
        | Except.ok (d2, c2, t2) => Except.ok (d2, c2, t1 ++ t2)
    else
      match procMultiFields f (pySplitCS s) pre d c fields with
      | Except.error e => Except.error e
      | Except.ok (d1, c1, t1) =>
        match procIds f fields pre rest d1 c1 with
        | Except.error e => Except.error e
        | Except.ok (d2, c2, t2) => Except.ok (d2, c2, t1 ++ t2)

/-- Value-level audit reset of `reset_empty_audits` (lines 70-76): a list
all of whose elements are falsy, or a falsy non-list, becomes None. -/
def resetAuditVal (v : PyVal) : PyVal :=
  match v with
  | PyVal.list xs => if xs.all (fun a => !a.isTruthy) then PyVal.none else PyVal.list xs
  | v => if !v.isTruthy then PyVal.none else v

/-- Source `reset_empty_audits` (lines 67-78): rewrite the rows of every
column whose name ends in `audit`; other columns are untouched. -/
def reset_empty_audits (d : PropsDict) : PropsDict :=
  d.map (fun kv =>
    if pyEndsWith kv.1 "audit" then (kv.1, kv.2.map resetAuditVal) else kv)

/-- Source `get_props_from_ids` before the audit reset, instrumented with
the final memoization dict and the fetch trace (`obj_json_dict` starts
empty at line 86). -/
def getPropsRun (obj_ids : List (Option String)) (prop_fields : List String)
    (pre : String) (f : Fetch) : Except String (PropsDict × Cache × List String) :=
  procIds f prop_fields pre obj_ids [] []

/-- Source `get_props_from_ids` (lines 81-118): project `prop_fields` of
each input element into columns named `pre.field`, then reset empty audit
values.  The source's `prefix` parameter is named `pre` here. -/
def get_props_from_ids (obj_ids : List (Option String)) (prop_fields : List String)
    (pre : String) (f : Fetch) : Except String PropsDict :=
  (getPropsRun obj_ids prop_fields pre f).map (fun r => reset_empty_audits r.1)

/-- Errors of the link resolver: a propagated transport error, Python
`KeyError` from `i['@id']`, or `TypeError` from joining non-strings or
subscripting a non-object. -/
inductive LinkErr where
  | remote (e : String)
  | keyError (k : String)
  | typeError

/-- Python `i['@id']` inside `', '.join(i['@id'] for i in ...)` (line 144):
the element must be an object with an `@id` key, and the join requires the
value to be a string. -/
def getAtId (x : PyVal) : Except LinkErr String :=
  match x with
  | PyVal.dict kvs =>
    match kvs.find? (fun kv => kv.1 == "@id") with
    | some kv =>
      match kv.2 with
      | PyVal.str s => Except.ok s
      | _ => Except.error LinkErr.typeError
    | Option.none => Except.error (LinkErr.keyError "@id")
  | _ => Except.error LinkErr.typeError

/-- A join element of `', '.join(obj_json.get(p))` (line 148): must be a
string, else Python raises a `TypeError`. -/
def asStr (x : PyVal) : Except LinkErr String :=
  match x with
  | PyVal.str s => Except.ok s
  | _ => Except.error LinkErr.typeError

/-- Per-field body of `get_link_prop_ids_from_ids` (lines 139-153): the
value appended for field `p` of the fetched entity. -/
def linkVal (ent : Entity) (p : String) : Except LinkErr PyVal :=
  let v := Entity.getD ent p
  if !v.isTruthy then Except.ok PyVal.none
  else
    match v with
    | PyVal.list [] => Except.ok PyVal.none
    | PyVal.list (x0 :: rest) =>
      match x0 with
      | PyVal.dict _ =>
        match (x0 :: rest).mapM getAtId with
        | Except.ok ss => Except.ok (PyVal.str (pyJoin ", " ss))
        | Except.error e => Except.error e
      | _ =>
        match (x0 :: rest).mapM asStr with
        | Except.ok ss => Except.ok (PyVal.str (pyJoin ", " ss))
        | Except.error e => Except.error e
    | PyVal.dict kvs =>
      match kvs.find? (fun kv => kv.1 == "@id") with
      | some kv => Except.ok kv.2
      | Option.none => Except.error (LinkErr.keyError "@id")
    | v => Except.ok v

/-- Column name `'.'.join([prefix, p, '@id'])` (lines 132/138). -/
def linkKey (pre p : String) : String :=
  pre ++ "." ++ p ++ ".@id"

/-- Inner field loop of `get_link_prop_ids_from_ids` (lines 137-153). -/
def procLinkFields (ent : Entity) (pre : String) (d : PropsDict) :
    List String → Except LinkErr PropsDict
  | [] => Except.ok d
  | p :: ps =>
    match linkVal ent p with
    | Except.error e => Except.error e
    | Except.ok v => procLinkFields ent pre (appendProp d (linkKey pre p) v) ps

/-- Main loop of `get_link_prop_ids_from_ids` (lines 129-153). -/
def procLinkIds (f : Fetch) (fields : List String) (pre : String) :
    List (Option String) → PropsDict → Except LinkErr PropsDict
  | [], d => Except.ok d
  | Option.none :: rest, d =>
    procLinkIds f fields pre rest
      (appendRow d (fun p => linkKey pre p) (fun _ => PyVal.none) fields)
  | some s :: rest, d =>
    match f s with
    | Except.error e => Except.error (LinkErr.remote e)
    | Except.ok ent =>
      match procLinkFields ent pre d fields with
      | Except.error e => Except.error e
      | Except.ok d1 => procLinkIds f fields pre rest d1

/-- Source `get_link_prop_ids_from_ids` (lines 127-155): resolve each link
field of each fetched entity to an identifier string (comma-joined when
the field holds several), under columns `pre.field.@id`. -/
def get_link_prop_ids_from_ids (obj_ids : List (Option String))
    (prop_fields : List String) (pre : String) (f : Fetch) :
    Except LinkErr PropsDict :=
  procLinkIds f prop_fields pre obj_ids []

/-- Source `status_color` (lines 183-193). -/
def status_color (x : PyVal) : String :=
  if pyEq x (PyVal.str "released") then "background-color: lightgreen"
  else if (match x with
           | PyVal.list xs => xs.all (fun i => pyEq i (PyVal.str "released"))
           | _ => false) then "background-color: lightgreen"
  else if pyEq x (PyVal.str "in progress") then "background-color: grey"
  else "background-color: white"

/-- Source `audit_color` (lines 198-204). -/
def audit_color (x : PyVal) : String :=
  match x with
  | PyVal.dict [] => "background-color: lightgreen"
  | _ => "background-color: white"

/-- A materialized dataframe: named columns in order. -/
abbrev Df := List (String × List PyVal)

/-- Pandas `dropna(how='all', axis=1)`: remove every column whose rows are
all missing (the script's cells use None for missing). -/
def dropAllNull (df : Df) : Df :=
  df.filter (fun c => !c.2.all (fun v => pyEq v PyVal.none))

/-- Pandas `df.loc[:, ~df.columns.duplicated()]`: keep the first column of
each name, drop later ones. -/
def dedupColsAux (seen : List String) : Df → Df
  | [] => []
  | c :: rest =>
    if c.1 ∈ seen then dedupColsAux seen rest
    else c :: dedupColsAux (c.1 :: seen) rest

/-- Column de-duplication keeping first occurrences (line 214). -/
def dedupCols (df : Df) : Df := dedupColsAux [] df

/-- The styled table returned by `output_df`: the final columns plus the
conditional-formatting colors attached by `.style.map`. -/
structure StyledDf where
  cols : Df
  styles : List (String × List String)

/-- The two `.style.map(..., subset=...)` applications (lines 217-219):
audit columns styled by `audit_color`, status columns by `status_color`. -/
def colStyles (df : Df) : List (String × List String) :=
  (df.filter (fun c => pyEndsWith c.1 "audit")).map
      (fun c => (c.1, c.2.map audit_color))
    ++ (df.filter (fun c => pyEndsWith c.1 "status")).map
      (fun c => (c.1, c.2.map status_color))

/-- Source `output_df` (lines 207-221): with a single input frame, only
drop all-None columns; with several, concatenate by columns, drop all-None
columns, then drop duplicate column names keeping the first occurrence;
finally attach the conditional formatting. -/
def output_df (dfs : List Df) : StyledDf :=
  let df_out :=
    match dfs with
    | [d] => dropAllNull d
    | _ => dedupCols (dropAllNull dfs.flatten)
  { cols := df_out, styles := colStyles df_out }

/-- The entity a deterministic fetcher yields for an identifier (the
entity component of a successful fetch; entities are only ever consumed
after a successful fetch, so the error fallback is arbitrary). -/
def fval (f : Fetch) (i : String) : Entity :=
  match f i with
  | Except.ok e => e
  | Except.error _ => []

/-- Row-level description of the value `get_props_from_ids` computes for
field `p` at an input element, before audit normalization: None for a null
element, the entity's field for a single identifier, and the ordered list
of the sub-identifiers' fields for a comma-joined element. -/
def rawPropVal (f : Fetch) (p : String) : Option String → PyVal
  | Option.none => PyVal.none
  | some s =>
    if (pySplitCS s).length == 1 then Entity.getD (fval f s) p
    else PyVal.list ((pySplitCS s).map (fun i => Entity.getD (fval f i) p))

/-- The value component of a successful `linkVal`. -/
def linkValD (ent : Entity) (p : String) : PyVal :=
  match linkVal ent p with
  | Except.ok v => v
  | Except.error _ => PyVal.none

/-- Row-level description of the value `get_link_prop_ids_from_ids`
computes for link field `p` at an input element. -/
def rawLinkVal (f : Fetch) (p : String) : Option String → PyVal
  | Option.none => PyVal.none
  | some s => linkValD (fval f s) p

/-- The identifiers a non-null input element denotes: the element itself
when it has no comma-space separator, otherwise its comma-split parts. -/
def mentionedIds (s : String) : List String :=
  if (pySplitCS s).length == 1 then [s] else pySplitCS s

/-- Spec-side emptiness test for an audit value: the value is empty, or it
is a nested list all of whose elements are empty. -/
def auditEmptyish : PyVal → Bool
  | PyVal.list xs => xs.all (fun a => !a.isTruthy)
  | v => !v.isTruthy

/-- Spec-side audit normalization: an empty (or all-empty nested) audit
value is rewritten to null, every other value is kept. -/
def specAuditNormalize (v : PyVal) : PyVal :=
  if auditEmptyish v then PyVal.none else v

/-- All memoized entries agree with the fetcher. -/
def cacheOK (f : Fetch) (c : Cache) : Prop := ∀ kv ∈ c, f kv.1 = Except.ok kv.2

/-- Identifiers present in the memoization dict. -/
def keysOf (c : Cache) : List String := c.map (fun kv => kv.1)

/-- The trace `t` of a computation from dict `c` to dict `c'`: every traced
identifier is fetched at most once, none was already memoized, and the
final dict holds exactly the old keys plus the traced ones. -/
def FreshTrace (c c' : Cache) (t : List String) : Prop :=
  t.Nodup ∧ (∀ i ∈ t, i ∉ keysOf c) ∧ (∀ i, i ∈ keysOf c' ↔ i ∈ keysOf c ∨ i ∈ t)

/-- The columns of one projection call, before audit normalization: one
column per field, one row per input element. -/
def projCols (f : Fetch) (ids : List (Option String)) (fields : List String)
    (pre : String) : PropsDict :=
  match ids with
  | [] => []
  | _ :: _ => fields.map (fun p => (pre ++ "." ++ p, ids.map (rawPropVal f p)))

/-- The columns of one link-resolution call. -/
def linkCols (f : Fetch) (ids : List (Option String)) (fields : List String)
    (pre : String) : PropsDict :=
  match ids with
  | [] => []
  | _ :: _ => fields.map (fun p => (linkKey pre p, ids.map (rawLinkVal f p)))

/-- A fetcher whose entities carry only an identifier, used to exhibit the
cross-call re-fetch. -/
def c1Fetch : Fetch := fun _ => Except.ok [("@id", PyVal.str "/x/")]

/-- A fetcher returning empty entities. -/
def c1WFetch : Fetch := fun _ => Except.ok []

/-- A fetcher used in the Claim C2 witness. -/
def c2WFetch : Fetch := fun _ => Except.ok [("@id", PyVal.str "/i/")]

/-- A fetcher that raises on one identifier, used in the Claim C3 witness. -/
def c3WFetch : Fetch := fun i =>
  if i = "/bad/" then Except.error "boom" else Except.ok []

/-- A fetcher returning empty entities, used in the Claim C4 counterexample. -/
def c4Fetch : Fetch := fun _ => Except.ok []

/-- A fetcher used in the Claim C4 witness. -/
def c4WFetch : Fetch := fun _ => Except.ok [("st", PyVal.str "v")]

/-- A fetcher whose entity holds an empty string in the link field, used
in the Claim C5 counterexample. -/
def c5Fetch : Fetch := fun _ => Except.ok [("p", PyVal.str "")]

/-- A fetcher whose entity links to two nested objects, used in the Claim
C5 witness. -/
def c5WFetch : Fetch := fun _ => Except.ok
  [("q", PyVal.list [PyVal.dict [("@id", PyVal.str "/s1/")],
                     PyVal.dict [("@id", PyVal.str "/s2/")]])]

/-- A fetcher whose entity has a non-empty audit record, for the Claim C8
witness. -/
def c8WFetch : Fetch := fun _ => Except.ok [("audit", PyVal.dict [("W", PyVal.str "x")])]

/-- A fetcher returning empty entities, for the Claim C9 witness. -/
def c9WFetch : Fetch := fun _ => Except.ok []

theorem strAppend_left_cancel {a b c : String} (h : a ++ b = a ++ c) : b = c := by
  have h2 : a.data ++ b.data = a.data ++ c.data := congrArg String.data h
  have h3 : b.data = c.data := List.append_cancel_left h2
  cases b; cases c; exact congrArg String.mk h3

theorem strAppend_right_cancel {a b c : String} (h : a ++ c = b ++ c) : a = b := by
  have h2 : a.data ++ c.data = b.data ++ c.data := congrArg String.data h
  have h3 : a.data = b.data := List.append_cancel_right h2
  cases a; cases b; exact congrArg String.mk h3

theorem propKey_inj {pre p q : String} (h : pre ++ "." ++ p = pre ++ "." ++ q) : p = q :=
  strAppend_left_cancel h

theorem linkKey_inj {pre p q : String} (h : linkKey pre p = linkKey pre q) : p = q :=
  strAppend_left_cancel (strAppend_right_cancel h)

theorem pyEq_str_iff {x : PyVal} {s : String} : pyEq x (PyVal.str s) = true ↔ x = PyVal.str s := by
  cases x <;> simp [pyEq]

theorem pyEq_none_iff {x : PyVal} : pyEq x PyVal.none = true ↔ x = PyVal.none := by
  cases x <;> simp [pyEq]

theorem appendProp_fresh {d : PropsDict} {k : String} (v : PyVal)
    (h : ∀ kv ∈ d, kv.1 ≠ k) : appendProp d k v = d ++ [(k, [v])] := by
  have hany : d.any (fun kv => kv.1 == k) = false := by
    rw [List.any_eq_false]
    intro kv hkv
    simp [h kv hkv]
  simp [appendProp, hany]

theorem appendProp_update {A B : PropsDict} {k : String} {vs : List PyVal} (v : PyVal)
    (hA : ∀ kv ∈ A, kv.1 ≠ k) (hB : ∀ kv ∈ B, kv.1 ≠ k) :
    appendProp (A ++ (k, vs) :: B) k v = A ++ (k, vs ++ [v]) :: B := by
  have hany : (A ++ (k, vs) :: B).any (fun kv => kv.1 == k) = true := by
    rw [List.any_eq_true]
    exact ⟨(k, vs), by simp, by simp⟩
  have hAid : ∀ kv ∈ A, (if kv.1 == k then (kv.1, kv.2 ++ [v]) else kv) = kv := by
    intro kv hkv
    simp [hA kv hkv]
  have hBid : ∀ kv ∈ B, (if kv.1 == k then (kv.1, kv.2 ++ [v]) else kv) = kv := by
    intro kv hkv
    simp [hB kv hkv]
  simp only [appendProp, hany, if_true, List.map_append, List.map_cons]
  rw [List.map_congr_left hAid, List.map_congr_left hBid]
  simp

theorem appendRow_fresh (keyFn : String → String) (valFn : String → PyVal) :
    ∀ (fields : List String) (d : PropsDict),
    List.Pairwise (fun p q => keyFn p ≠ keyFn q) fields →
    (∀ p ∈ fields, ∀ kv ∈ d, kv.1 ≠ keyFn p) →
    appendRow d keyFn valFn fields = d ++ fields.map (fun p => (keyFn p, [valFn p])) := by
  intro fields
  induction fields with
  | nil => intro d _ _; simp [appendRow]
  | cons p ps ih =>
    intro d hk hfresh
    rw [appendRow, appendProp_fresh (valFn p) (hfresh p (by simp))]
    rw [ih (d ++ [(keyFn p, [valFn p])]) hk.of_cons]
    · simp
    · intro q hq kv hkv
      rcases List.mem_append.mp hkv with h1 | h1
      · exact hfresh q (by simp [hq]) kv h1
      · have : kv = (keyFn p, [valFn p]) := by simpa using h1
        subst this
        exact (List.pairwise_cons.mp hk).1 q hq

theorem appendRow_update (keyFn : String → String) (valFn : String → PyVal) :
    ∀ (fields : List String) (A : PropsDict) (g : String → List PyVal),
    List.Pairwise (fun p q => keyFn p ≠ keyFn q) fields →
    (∀ p ∈ fields, ∀ kv ∈ A, kv.1 ≠ keyFn p) →
    appendRow (A ++ fields.map (fun p => (keyFn p, g p))) keyFn valFn fields
      = A ++ fields.map (fun p => (keyFn p, g p ++ [valFn p])) := by
  intro fields
  induction fields with
  | nil => intro A g _ _; simp [appendRow]
  | cons p ps ih =>
    intro A g hk hA
    have hpair := List.pairwise_cons.mp hk
    rw [List.map_cons, appendRow]
    have hstep : appendProp (A ++ (keyFn p, g p) :: ps.map (fun q => (keyFn q, g q)))
        (keyFn p) (valFn p)
        = A ++ (keyFn p, g p ++ [valFn p]) :: ps.map (fun q => (keyFn q, g q)) := by
      apply appendProp_update
      · exact fun kv hkv => hA p (by simp) kv hkv
      · intro kv hkv
        rcases List.mem_map.mp hkv with ⟨q, hq, hkv2⟩
        subst hkv2
        exact fun he => hpair.1 q hq he.symm
    rw [hstep]
    have hrw : A ++ (keyFn p, g p ++ [valFn p]) :: ps.map (fun q => (keyFn q, g q))
        = (A ++ [(keyFn p, g p ++ [valFn p])]) ++ ps.map (fun q => (keyFn q, g q)) := by
      simp
    rw [hrw]
    rw [ih (A ++ [(keyFn p, g p ++ [valFn p])]) g hpair.2]
    · simp
    · intro q hq kv hkv
      rcases List.mem_append.mp hkv with h1 | h1
      · exact hA q (by simp [hq]) kv h1
      · have h2 : kv = (keyFn p, g p ++ [valFn p]) := by simpa using h1
        subst h2
        exact fun he => hpair.1 q hq (by simpa using he)

theorem freshTrace_refl (c : Cache) : FreshTrace c c [] :=
  ⟨List.nodup_nil, by simp, by simp⟩

theorem freshTrace_comp {c c1 c2 : Cache} {t1 t2 : List String}
    (h1 : FreshTrace c c1 t1) (h2 : FreshTrace c1 c2 t2) :
    FreshTrace c c2 (t1 ++ t2) := by
  obtain ⟨n1, f1, k1⟩ := h1
  obtain ⟨n2, f2, k2⟩ := h2
  refine ⟨?_, ?_, ?_⟩
  · rw [List.nodup_append]
    refine ⟨n1, n2, ?_⟩
    intro i hi1 hi2
    exact f2 i hi2 ((k1 i).mpr (Or.inr hi1))
  · intro i hi
    rcases List.mem_append.mp hi with h | h
    · exact f1 i h
    · exact fun hc => f2 i h ((k1 i).mpr (Or.inl hc))
  · intro i
    rw [k2 i, k1 i, List.mem_append]
    tauto

theorem cacheLookup_some {c : Cache} {i : String} {e : Entity}
    (h : cacheLookup c i = some e) : (i, e) ∈ c := by
  unfold cacheLookup at h
  cases hf : c.find? (fun kv => kv.1 == i) with
  | none => rw [hf] at h; simp at h
  | some kv =>
    rw [hf] at h
    have hmem := List.mem_of_find?_eq_some hf
    have hp := List.find?_some hf
    have h1 : kv.1 = i := by simpa using hp
    have h2 : kv.2 = e := by simpa using h
    have h3 : kv = (i, e) := by
      cases kv; simp_all
    rwa [h3] at hmem

theorem cacheLookup_none {c : Cache} {i : String}
    (h : cacheLookup c i = Option.none) : i ∉ keysOf c := by
  unfold cacheLookup at h
  cases hf : c.find? (fun kv => kv.1 == i) with
  | some kv => rw [hf] at h; simp at h
  | none =>
    intro hk
    rcases List.mem_map.mp hk with ⟨kv, hkv, hkv1⟩
    have := List.find?_eq_none.mp hf kv hkv
    simp [hkv1] at this

theorem cachedFetch_ok {f : Fetch} {c : Cache} {i : String} {e : Entity} {c' : Cache}
    {t : List String} (hc : cacheOK f c)
    (h : cachedFetch f c i = Except.ok (e, c', t)) :
    f i = Except.ok e ∧ cacheOK f c' ∧ FreshTrace c c' t ∧ i ∈ keysOf c' := by
  unfold cachedFetch at h
  cases hl : cacheLookup c i with
  | some e0 =>
    rw [hl] at h
    have h1 : e0 = e ∧ c = c' ∧ ([] : List String) = t := by simpa using h
    obtain ⟨he, hcc, ht⟩ := h1
    have hmem : (i, e) ∈ c := he ▸ cacheLookup_some hl
    rw [← hcc, ← ht]
    refine ⟨hc (i, e) hmem, hc, freshTrace_refl c, ?_⟩
    exact List.mem_map.mpr ⟨(i, e), hmem, rfl⟩
  | none =>
    rw [hl] at h
    have hnotin := cacheLookup_none hl
    cases hf : f i with
    | error err => rw [hf] at h; simp at h
    | ok e1 =>
      rw [hf] at h
      have h1 : e1 = e ∧ c ++ [(i, e1)] = c' ∧ [i] = t := by simpa using h
      obtain ⟨he, hcc, ht⟩ := h1
      rw [← hcc, ← ht, ← he]
      refine ⟨rfl, ?_, ?_, ?_⟩
      · intro kv hkv
        rcases List.mem_append.mp hkv with h2 | h2
        · exact hc kv h2
        · have h3 : kv = (i, e1) := by simpa using h2
          rw [h3]
          exact hf
      · refine ⟨List.nodup_singleton i, ?_, ?_⟩
        · intro j hj
          have h4 : j = i := by simpa using hj
          rw [h4]
          exact hnotin
        · intro j
          simp [keysOf]
      · simp [keysOf]

theorem cachedFetch_err {f : Fetch} {c : Cache} {i : String} {err : String}
    (h : cachedFetch f c i = Except.error err) : f i = Except.error err := by
  unfold cachedFetch at h
  cases hl : cacheLookup c i with
  | some e0 => rw [hl] at h; simp at h
  | none =>
    rw [hl] at h
    cases hf : f i with
    | error e2 =>
      rw [hf] at h
      have h2 : e2 = err := by simpa using h
      rw [h2]
    | ok e1 => rw [hf] at h; simp at h

theorem procSubIds_ok {f : Fetch} {p : String} :
    ∀ {subids : List String} {c : Cache} {vs : List PyVal} {c' : Cache} {t : List String},
    cacheOK f c → procSubIds f p c subids = Except.ok (vs, c', t) →
    vs = subids.map (fun i => Entity.getD (fval f i) p) ∧ cacheOK f c' ∧ FreshTrace c c' t
      ∧ ∀ i ∈ subids, i ∈ keysOf c' := by
  intro subids
  induction subids with
  | nil =>
    intro c vs c' t hc h
    have h1 : ([] : List PyVal) = vs ∧ c = c' ∧ ([] : List String) = t := by
      simpa [procSubIds] using h
    obtain ⟨h2, h3, h4⟩ := h1
    rw [← h2, ← h3, ← h4]
    exact ⟨by simp, hc, freshTrace_refl c, by simp⟩
  | cons i rest ih =>
    intro c vs c' t hc h
    rw [procSubIds] at h
    cases hcf : cachedFetch f c i with
    | error e => rw [hcf] at h; simp at h
    | ok r =>
      obtain ⟨ent, c1, t1⟩ := r
      rw [hcf] at h
      simp only at h
      cases hrec : procSubIds f p c1 rest with
      | error e => rw [hrec] at h; simp at h
      | ok r2 =>
        obtain ⟨vs2, c2, t2⟩ := r2
        rw [hrec] at h
        have h1 : Entity.getD ent p :: vs2 = vs ∧ c2 = c' ∧ t1 ++ t2 = t := by simpa using h
        obtain ⟨hv, hcc, ht⟩ := h1
        obtain ⟨hfi, hc1, hft1, hk1⟩ := cachedFetch_ok hc hcf
        obtain ⟨hvs2, hc2, hft2, hk2⟩ := ih hc1 hrec
        rw [← hv, ← hcc, ← ht]
        refine ⟨?_, hc2, freshTrace_comp hft1 hft2, ?_⟩
        · rw [hvs2]
          simp [fval, hfi]
        · intro j hj
          rcases List.mem_cons.mp hj with h5 | h5
          · rw [h5]
            exact (hft2.2.2 i).mpr (Or.inl hk1)
          · exact hk2 j h5

theorem procSubIds_err {f : Fetch} {p : String} :
    ∀ {subids : List String} {c : Cache} {err : String},
    procSubIds f p c subids = Except.error err → ∃ i ∈ subids, f i = Except.error err := by
  intro subids
  induction subids with
  | nil => intro c err h; simp [procSubIds] at h
  | cons i rest ih =>
    intro c err h
    rw [procSubIds] at h
    cases hcf : cachedFetch f c i with
    | error e =>
      rw [hcf] at h
      have h2 : e = err := by simpa using h
      exact ⟨i, by simp, h2 ▸ cachedFetch_err hcf⟩
    | ok r =>
      obtain ⟨ent, c1, t1⟩ := r
      rw [hcf] at h
      simp only at h
      cases hrec : procSubIds f p c1 rest with
      | error e =>
        rw [hrec] at h
        have h2 : e = err := by simpa using h
        obtain ⟨j, hj, hfj⟩ := ih (h2 ▸ hrec)
        exact ⟨j, by simp [hj], hfj⟩
      | ok r2 =>
        obtain ⟨vs2, c2, t2⟩ := r2
        rw [hrec] at h
        simp at h

theorem procMultiFields_ok {f : Fetch} {subids : List String} {pre : String} :
    ∀ {fields : List String} {d : PropsDict} {c : Cache} {d' : PropsDict} {c' : Cache}
      {t : List String},
    cacheOK f c → procMultiFields f subids pre d c fields = Except.ok (d', c', t) →
    d' = appendRow d (fun p => pre ++ "." ++ p)
          (fun p => PyVal.list (subids.map (fun i => Entity.getD (fval f i) p))) fields
      ∧ cacheOK f c' ∧ FreshTrace c c' t
      ∧ (fields ≠ [] → ∀ i ∈ subids, i ∈ keysOf c') := by
  intro fields
  induction fields with
  | nil =>
    intro d c d' c' t hc h
    have h1 : d = d' ∧ c = c' ∧ ([] : List String) = t := by simpa [procMultiFields] using h
    obtain ⟨h2, h3, h4⟩ := h1
    rw [← h2, ← h3, ← h4]
    exact ⟨by simp [appendRow], hc, freshTrace_refl c, by simp⟩
  | cons p ps ih =>
    intro d c d' c' t hc h
    rw [procMultiFields] at h
    cases hsub : procSubIds f p c subids with
    | error e => rw [hsub] at h; simp at h
    | ok r =>
      obtain ⟨vs, c1, t1⟩ := r
      rw [hsub] at h
      simp only at h
      cases hrec : procMultiFields f subids pre
          (appendProp d (pre ++ "." ++ p) (PyVal.list vs)) c1 ps with
      | error e => rw [hrec] at h; simp at h
      | ok r2 =>
        obtain ⟨d2, c2, t2⟩ := r2
        rw [hrec] at h
        have h1 : d2 = d' ∧ c2 = c' ∧ t1 ++ t2 = t := by simpa using h
        obtain ⟨hd, hcc, ht⟩ := h1
        obtain ⟨hvs, hc1, hft1, hk1⟩ := procSubIds_ok hc hsub
        obtain ⟨hd2, hc2, hft2, hk2⟩ := ih hc1 hrec
        rw [← hd, ← hcc, ← ht]
        refine ⟨?_, hc2, freshTrace_comp hft1 hft2, ?_⟩
        · rw [hd2, appendRow, hvs]
        · intro _ i hi
          exact (hft2.2.2 i).mpr (Or.inl (hk1 i hi))

theorem procMultiFields_err {f : Fetch} {subids : List String} {pre : String} :
    ∀ {fields : List String} {d : PropsDict} {c : Cache} {err : String},
    procMultiFields f subids pre d c fields = Except.error err →
    ∃ i ∈ subids, f i = Except.error err := by
  intro fields
  induction fields with
  | nil => intro d c err h; simp [procMultiFields] at h
  | cons p ps ih =>
    intro d c err h
    rw [procMultiFields] at h
    cases hsub : procSubIds f p c subids with
    | error e =>
      rw [hsub] at h
      have h2 : e = err := by simpa using h
      exact procSubIds_err (h2 ▸ hsub)
    | ok r =>
      obtain ⟨vs, c1, t1⟩ := r
      rw [hsub] at h
      simp only at h
      cases hrec : procMultiFields f subids pre
          (appendProp d (pre ++ "." ++ p) (PyVal.list vs)) c1 ps with
      | error e =>
        rw [hrec] at h
        have h2 : e = err := by simpa using h
        exact ih (h2 ▸ hrec)
      | ok r2 =>
        obtain ⟨d2, c2, t2⟩ := r2
        rw [hrec] at h
        simp at h

theorem procIds_ok {f : Fetch} {fields : List String} {pre : String}
    (hp : List.Pairwise (fun p q => pre ++ "." ++ p ≠ pre ++ "." ++ q) fields) :
    ∀ {ids : List (Option String)} {A : PropsDict} {g : String → List PyVal} {c : Cache}
      {d : PropsDict} {c' : Cache} {t : List String},
    cacheOK f c → (∀ p ∈ fields, ∀ kv ∈ A, kv.1 ≠ pre ++ "." ++ p) →
    procIds f fields pre ids (A ++ fields.map (fun p => (pre ++ "." ++ p, g p))) c
      = Except.ok (d, c', t) →
    d = A ++ fields.map (fun p => (pre ++ "." ++ p, g p ++ ids.map (rawPropVal f p)))
      ∧ cacheOK f c' := by
  intro ids
  induction ids with
  | nil =>
    intro A g c d c' t hc hA h
    have h1 : A ++ fields.map (fun p => (pre ++ "." ++ p, g p)) = d
        ∧ c = c' ∧ ([] : List String) = t := by simpa [procIds] using h
    obtain ⟨hd, hcc, _⟩ := h1
    rw [← hd, ← hcc]
    refine ⟨?_, hc⟩
    simp
  | cons oid rest ih =>
    intro A g c d c' t hc hA h
    cases oid with
    | none =>
      rw [procIds] at h
      rw [appendRow_update _ _ fields A g hp hA] at h
      obtain ⟨hd, hc'⟩ := ih hc hA h
      refine ⟨?_, hc'⟩
      rw [hd]
      congr 1
      apply List.map_congr_left
      intro p hpin
      simp [rawPropVal, List.append_assoc]
    | some s =>
      rw [procIds] at h
      by_cases hlen : ((pySplitCS s).length == 1) = true
      · rw [if_pos hlen] at h
        cases hcf : cachedFetch f c s with
        | error e => rw [hcf] at h; simp at h
        | ok r =>
          obtain ⟨ent, c1, t1⟩ := r
          rw [hcf] at h
          simp only at h
          rw [appendRow_update _ _ fields A g hp hA] at h
          cases hrec : procIds f fields pre rest
              (A ++ fields.map (fun p => (pre ++ "." ++ p, g p ++ [Entity.getD ent p]))) c1 with
          | error e => rw [hrec] at h; simp at h
          | ok r2 =>
            obtain ⟨d2, c2, t2⟩ := r2
            rw [hrec] at h
            have h1 : d2 = d ∧ c2 = c' ∧ t1 ++ t2 = t := by simpa using h
            obtain ⟨hd2eq, hcc, _⟩ := h1
            obtain ⟨hfs, hc1, hft1, hk1⟩ := cachedFetch_ok hc hcf
            obtain ⟨hd2, hc2⟩ := ih hc1 hA hrec
            rw [← hd2eq, ← hcc]
            refine ⟨?_, hc2⟩
            rw [hd2]
            congr 1
            apply List.map_congr_left
            intro p hpin
            simp [rawPropVal, hlen, fval, hfs, List.append_assoc]
      · rw [if_neg hlen] at h
        cases hmf : procMultiFields f (pySplitCS s) pre
            (A ++ fields.map (fun p => (pre ++ "." ++ p, g p))) c fields with
        | error e => rw [hmf] at h; simp at h
        | ok r =>
          obtain ⟨d1, c1, t1⟩ := r
          rw [hmf] at h
          simp only at h
          cases hrec : procIds f fields pre rest d1 c1 with
          | error e => rw [hrec] at h; simp at h
          | ok r2 =>
            obtain ⟨d2, c2, t2⟩ := r2
            rw [hrec] at h
            have h1 : d2 = d ∧ c2 = c' ∧ t1 ++ t2 = t := by simpa using h
            obtain ⟨hd2eq, hcc, _⟩ := h1
            obtain ⟨hd1, hc1, hft1, hk1⟩ := procMultiFields_ok hc hmf
            rw [appendRow_update _ _ fields A g hp hA] at hd1
            rw [hd1] at hrec
            obtain ⟨hd2, hc2⟩ := ih hc1 hA hrec
            rw [← hd2eq, ← hcc]
            refine ⟨?_, hc2⟩
            rw [hd2]
            congr 1
            apply List.map_congr_left
            intro p hpin
            simp only [rawPropVal, List.map_cons]
            rw [if_neg hlen]
            simp [List.append_assoc]

theorem procIds_trace {f : Fetch} {fields : List String} {pre : String} :
    ∀ {ids : List (Option String)} {d : PropsDict} {c : Cache} {d' : PropsDict}
      {c' : Cache} {t : List String},
    cacheOK f c → procIds f fields pre ids d c = Except.ok (d', c', t) →
    FreshTrace c c' t ∧ cacheOK f c'
      ∧ (fields ≠ [] → ∀ oid ∈ ids, ∀ s, oid = some s → ∀ i ∈ mentionedIds s, i ∈ keysOf c') := by
  intro ids
  induction ids with
  | nil =>
    intro d c d' c' t hc h
    have h1 : d = d' ∧ c = c' ∧ ([] : List String) = t := by simpa [procIds] using h
    obtain ⟨_, hcc, ht⟩ := h1
    rw [← hcc, ← ht]
    exact ⟨freshTrace_refl c, hc, by simp⟩
  | cons oid rest ih =>
    intro d c d' c' t hc h
    cases oid with
    | none =>
      rw [procIds] at h
      obtain ⟨hft, hc', hmen⟩ := ih hc h
      refine ⟨hft, hc', ?_⟩
      intro hne oid hoid s hs
      rcases List.mem_cons.mp hoid with h2 | h2
      · rw [h2] at hs; exact absurd hs (by simp)
      · exact hmen hne oid h2 s hs
    | some s0 =>
      rw [procIds] at h
      by_cases hlen : ((pySplitCS s0).length == 1) = true
      · rw [if_pos hlen] at h
        cases hcf : cachedFetch f c s0 with
        | error e => rw [hcf] at h; simp at h
        | ok r =>
          obtain ⟨ent, c1, t1⟩ := r
          rw [hcf] at h
          simp only at h
          cases hrec : procIds f fields pre rest
              (appendRow d (fun p => pre ++ "." ++ p) (fun p => Entity.getD ent p) fields) c1 with
          | error e => rw [hrec] at h; simp at h
          | ok r2 =>
            obtain ⟨d2, c2, t2⟩ := r2
            rw [hrec] at h
            have h1 : d2 = d' ∧ c2 = c' ∧ t1 ++ t2 = t := by simpa using h
            obtain ⟨_, hcc, ht⟩ := h1
            obtain ⟨hfs, hc1, hft1, hk1⟩ := cachedFetch_ok hc hcf
            obtain ⟨hft2, hc2, hmen⟩ := ih hc1 hrec
            rw [← hcc, ← ht]
            refine ⟨freshTrace_comp hft1 hft2, hc2, ?_⟩
            intro hne oid hoid s hs
            rcases List.mem_cons.mp hoid with h2 | h2
            · rw [h2] at hs
              have hs0 : s = s0 := by simpa using hs.symm
              rw [hs0]
              intro i hi
              rw [mentionedIds, if_pos hlen] at hi
              have h3 : i = s0 := by simpa using hi
              rw [h3]
              exact (hft2.2.2 s0).mpr (Or.inl hk1)
            · exact hmen hne oid h2 s hs
      · rw [if_neg hlen] at h
        cases hmf : procMultiFields f (pySplitCS s0) pre d c fields with
        | error e => rw [hmf] at h; simp at h
        | ok r =>
          obtain ⟨d1, c1, t1⟩ := r
          rw [hmf] at h
          simp only at h
          cases hrec : procIds f fields pre rest d1 c1 with
          | error e => rw [hrec] at h; simp at h
          | ok r2 =>
            obtain ⟨d2, c2, t2⟩ := r2
            rw [hrec] at h
            have h1 : d2 = d' ∧ c2 = c' ∧ t1 ++ t2 = t := by simpa using h
            obtain ⟨_, hcc, ht⟩ := h1
            obtain ⟨hd1, hc1, hft1, hk1⟩ := procMultiFields_ok hc hmf
            obtain ⟨hft2, hc2, hmen⟩ := ih hc1 hrec
            rw [← hcc, ← ht]
            refine ⟨freshTrace_comp hft1 hft2, hc2, ?_⟩
            intro hne oid hoid s hs
            rcases List.mem_cons.mp hoid with h2 | h2
            · rw [h2] at hs
              have hs0 : s = s0 := by simpa using hs.symm
              rw [hs0]
              intro i hi
              rw [mentionedIds, if_neg hlen] at hi
              exact (hft2.2.2 i).mpr (Or.inl (hk1 hne i hi))
            · exact hmen hne oid h2 s hs

theorem procIds_err {f : Fetch} {fields : List String} {pre : String} :
    ∀ {ids : List (Option String)} {d : PropsDict} {c : Cache} {err : String},
    procIds f fields pre ids d c = Except.error err →
    ∃ oid ∈ ids, ∃ s, oid = some s ∧ ∃ i ∈ mentionedIds s, f i = Except.error err := by
  intro ids
  induction ids with
  | nil => intro d c err h; simp [procIds] at h
  | cons oid rest ih =>
    intro d c err h
    cases oid with
    | none =>
      rw [procIds] at h
      obtain ⟨oid2, hmem, hrest⟩ := ih h
      exact ⟨oid2, by simp [hmem], hrest⟩
    | some s0 =>
      rw [procIds] at h
      by_cases hlen : ((pySplitCS s0).length == 1) = true
      · rw [if_pos hlen] at h
        cases hcf : cachedFetch f c s0 with
        | error e =>
          rw [hcf] at h
          have h2 : e = err := by simpa using h
          refine ⟨some s0, by simp, s0, rfl, s0, ?_, h2 ▸ cachedFetch_err hcf⟩
          rw [mentionedIds, if_pos hlen]
          simp
        | ok r =>
          obtain ⟨ent, c1, t1⟩ := r
          rw [hcf] at h
          simp only at h
          cases hrec : procIds f fields pre rest
              (appendRow d (fun p => pre ++ "." ++ p) (fun p => Entity.getD ent p) fields) c1 with
          | error e =>
            rw [hrec] at h
            have h2 : e = err := by simpa using h
            obtain ⟨oid2, hmem, hrest⟩ := ih (h2 ▸ hrec)
            exact ⟨oid2, by simp [hmem], hrest⟩
          | ok r2 =>
            obtain ⟨d2, c2, t2⟩ := r2
            rw [hrec] at h
            simp at h
      · rw [if_neg hlen] at h
        cases hmf : procMultiFields f (pySplitCS s0) pre d c fields with
        | error e =>
          rw [hmf] at h
          have h2 : e = err := by simpa using h
          obtain ⟨i, hi, hfi⟩ := procMultiFields_err (h2 ▸ hmf)
          refine ⟨some s0, by simp, s0, rfl, i, ?_, hfi⟩
          rw [mentionedIds, if_neg hlen]
          exact hi
        | ok r =>
          obtain ⟨d1, c1, t1⟩ := r
          rw [hmf] at h
          simp only at h
          cases hrec : procIds f fields pre rest d1 c1 with
          | error e =>
            rw [hrec] at h
            have h2 : e = err := by simpa using h
            obtain ⟨oid2, hmem, hrest⟩ := ih (h2 ▸ hrec)
            exact ⟨oid2, by simp [hmem], hrest⟩
          | ok r2 =>
            obtain ⟨d2, c2, t2⟩ := r2
            rw [hrec] at h
            simp at h

theorem cacheOK_nil (f : Fetch) : cacheOK f [] := by
  intro kv h
  simp at h

theorem pairwiseKeys {pre : String} {fields : List String} (hnd : fields.Nodup) :
    List.Pairwise (fun p q => pre ++ "." ++ p ≠ pre ++ "." ++ q) fields :=
  List.Pairwise.imp (fun hne he => hne (propKey_inj he)) hnd

theorem getPropsRun_ok {f : Fetch} {ids : List (Option String)} {fields : List String}
    {pre : String} {d : PropsDict} {c : Cache} {t : List String} (hnd : fields.Nodup)
    (h : getPropsRun ids fields pre f = Except.ok (d, c, t)) :
    d = projCols f ids fields pre ∧ cacheOK f c := by
  have hp : List.Pairwise (fun p q => pre ++ "." ++ p ≠ pre ++ "." ++ q) fields :=
    pairwiseKeys hnd
  unfold getPropsRun at h
  cases ids with
  | nil =>
    have h1 : ([] : PropsDict) = d ∧ ([] : Cache) = c ∧ ([] : List String) = t := by
      simpa [procIds] using h
    obtain ⟨hd, hcc, _⟩ := h1
    rw [← hd, ← hcc]
    exact ⟨rfl, cacheOK_nil f⟩
  | cons oid rest =>
    cases oid with
    | none =>
      rw [procIds] at h
      rw [appendRow_fresh _ _ fields [] hp (by simp)] at h
      rw [show ([] : PropsDict) ++ fields.map (fun p => (pre ++ "." ++ p, [PyVal.none]))
          = ([] : PropsDict) ++ fields.map (fun p => (pre ++ "." ++ p,
              (fun _ : String => [PyVal.none]) p)) from rfl] at h
      obtain ⟨hd, hc⟩ := procIds_ok hp (cacheOK_nil f) (by simp) h
      refine ⟨?_, hc⟩
      rw [hd, projCols]
      simp [rawPropVal]
    | some s =>
      rw [procIds] at h
      by_cases hlen : ((pySplitCS s).length == 1) = true
      · rw [if_pos hlen] at h
        cases hcf : cachedFetch f [] s with
        | error e => rw [hcf] at h; simp at h
        | ok r =>
          obtain ⟨ent, c1, t1⟩ := r
          rw [hcf] at h
          simp only at h
          cases hrec : procIds f fields pre rest
              (appendRow [] (fun p => pre ++ "." ++ p) (fun p => Entity.getD ent p) fields) c1 with
          | error e => rw [hrec] at h; simp at h
          | ok r2 =>
            obtain ⟨d2, c2, t2⟩ := r2
            rw [hrec] at h
            have h1 : d2 = d ∧ c2 = c ∧ t1 ++ t2 = t := by simpa using h
            obtain ⟨hd2eq, hcc, _⟩ := h1
            obtain ⟨hfs, hc1, _, _⟩ := cachedFetch_ok (cacheOK_nil f) hcf
            rw [appendRow_fresh _ _ fields [] hp (by simp)] at hrec
            rw [show ([] : PropsDict) ++ fields.map (fun p => (pre ++ "." ++ p, [Entity.getD ent p]))
                = ([] : PropsDict) ++ fields.map (fun p => (pre ++ "." ++ p,
                    (fun q : String => [Entity.getD ent q]) p)) from rfl] at hrec
            obtain ⟨hd2, hc2⟩ := procIds_ok hp hc1 (by simp) hrec
            rw [← hd2eq, ← hcc]
            refine ⟨?_, hc2⟩
            rw [hd2, projCols]
            simp only [List.nil_append]
            apply List.map_congr_left
            intro p hpin
            simp [rawPropVal, hlen, fval, hfs]
      · rw [if_neg hlen] at h
        cases hmf : procMultiFields f (pySplitCS s) pre [] [] fields with
        | error e => rw [hmf] at h; simp at h
        | ok r =>
          obtain ⟨d1, c1, t1⟩ := r
          rw [hmf] at h
          simp only at h
          cases hrec : procIds f fields pre rest d1 c1 with
          | error e => rw [hrec] at h; simp at h
          | ok r2 =>
            obtain ⟨d2, c2, t2⟩ := r2
            rw [hrec] at h
            have h1 : d2 = d ∧ c2 = c ∧ t1 ++ t2 = t := by simpa using h
            obtain ⟨hd2eq, hcc, _⟩ := h1
            obtain ⟨hd1, hc1, _, _⟩ := procMultiFields_ok (cacheOK_nil f) hmf
            rw [appendRow_fresh _ _ fields [] hp (by simp)] at hd1
            rw [hd1] at hrec
            rw [show ([] : PropsDict) ++ fields.map (fun p => (pre ++ "." ++ p,
                  [PyVal.list ((pySplitCS s).map (fun i => Entity.getD (fval f i) p))]))
                = ([] : PropsDict) ++ fields.map (fun p => (pre ++ "." ++ p,
                    (fun q : String => [PyVal.list ((pySplitCS s).map
                      (fun i => Entity.getD (fval f i) q))]) p)) from rfl] at hrec
            obtain ⟨hd2, hc2⟩ := procIds_ok hp hc1 (by simp) hrec
            rw [← hd2eq, ← hcc]
            refine ⟨?_, hc2⟩
            rw [hd2, projCols]
            simp only [List.nil_append]
            apply List.map_congr_left
            intro p hpin
            simp only [rawPropVal, List.map_cons]
            rw [if_neg hlen]
            simp

theorem get_props_from_ids_ok {f : Fetch} {ids : List (Option String)}
    {fields : List String} {pre : String} {d : PropsDict} (hnd : fields.Nodup)
    (h : get_props_from_ids ids fields pre f = Except.ok d) :
    d = reset_empty_audits (projCols f ids fields pre) := by
  unfold get_props_from_ids at h
  cases hrun : getPropsRun ids fields pre f with
  | error e => rw [hrun] at h; simp [Except.map] at h
  | ok r =>
    obtain ⟨d0, c, t⟩ := r
    rw [hrun] at h
    have h1 : reset_empty_audits d0 = d := by simpa [Except.map] using h
    obtain ⟨hd0, _⟩ := getPropsRun_ok hnd hrun
    rw [← h1, hd0]

theorem linkValD_of_ok {ent : Entity} {p : String} {v : PyVal}
    (h : linkVal ent p = Except.ok v) : linkValD ent p = v := by
  unfold linkValD
  rw [h]

theorem procLinkFields_ok {ent : Entity} {pre : String} :
    ∀ {fields : List String} {d d' : PropsDict},
    procLinkFields ent pre d fields = Except.ok d' →
    d' = appendRow d (fun p => linkKey pre p) (fun p => linkValD ent p) fields := by
  intro fields
  induction fields with
  | nil =>
    intro d d' h
    have h1 : d = d' := by simpa [procLinkFields] using h
    rw [← h1, appendRow]
  | cons p ps ih =>
    intro d d' h
    rw [procLinkFields] at h
    cases hlv : linkVal ent p with
    | error e => rw [hlv] at h; simp at h
    | ok v =>
      rw [hlv] at h
      simp only at h
      rw [appendRow, ih h, linkValD_of_ok hlv]

theorem pairwiseLinkKeys {pre : String} {fields : List String} (hnd : fields.Nodup) :
    List.Pairwise (fun p q => linkKey pre p ≠ linkKey pre q) fields :=
  List.Pairwise.imp (fun hne he => hne (linkKey_inj he)) hnd

theorem procLinkIds_ok {f : Fetch} {fields : List String} {pre : String}
    (hp : List.Pairwise (fun p q => linkKey pre p ≠ linkKey pre q) fields) :
    ∀ {ids : List (Option String)} {A : PropsDict} {g : String → List PyVal}
      {d : PropsDict},
    (∀ p ∈ fields, ∀ kv ∈ A, kv.1 ≠ linkKey pre p) →
    procLinkIds f fields pre ids (A ++ fields.map (fun p => (linkKey pre p, g p)))
      = Except.ok d →
    d = A ++ fields.map (fun p => (linkKey pre p, g p ++ ids.map (rawLinkVal f p))) := by
  intro ids
  induction ids with
  | nil =>
    intro A g d hA h
    have h1 : A ++ fields.map (fun p => (linkKey pre p, g p)) = d := by
      simpa [procLinkIds] using h
    rw [← h1]
    simp
  | cons oid rest ih =>
    intro A g d hA h
    cases oid with
    | none =>
      rw [procLinkIds] at h
      rw [appendRow_update _ _ fields A g hp hA] at h
      rw [ih hA h]
      congr 1
      apply List.map_congr_left
      intro p hpin
      simp [rawLinkVal, List.append_assoc]
    | some s =>
      rw [procLinkIds] at h
      cases hf : f s with
      | error e => rw [hf] at h; simp at h
      | ok ent =>
        rw [hf] at h
        simp only at h
        cases hlf : procLinkFields ent pre
            (A ++ fields.map (fun p => (linkKey pre p, g p))) fields with
        | error e => rw [hlf] at h; simp at h
        | ok d1 =>
          rw [hlf] at h
          simp only at h
          have hd1 := procLinkFields_ok hlf
          rw [appendRow_update _ _ fields A g hp hA] at hd1
          rw [hd1] at h
          rw [ih hA h]
          congr 1
          apply List.map_congr_left
          intro p hpin
          simp [rawLinkVal, fval, hf, List.append_assoc]

theorem get_link_prop_ids_from_ids_ok {f : Fetch} {ids : List (Option String)}
    {fields : List String} {pre : String} {d : PropsDict} (hnd : fields.Nodup)
    (h : get_link_prop_ids_from_ids ids fields pre f = Except.ok d) :
    d = linkCols f ids fields pre := by
  have hp : List.Pairwise (fun p q => linkKey pre p ≠ linkKey pre q) fields :=
    pairwiseLinkKeys hnd
  unfold get_link_prop_ids_from_ids at h
  cases ids with
  | nil => simpa [procLinkIds, linkCols] using h.symm
  | cons oid rest =>
    cases oid with
    | none =>
      rw [procLinkIds] at h
      rw [appendRow_fresh _ _ fields [] hp (by simp)] at h
      rw [show ([] : PropsDict) ++ fields.map (fun p => (linkKey pre p, [PyVal.none]))
          = ([] : PropsDict) ++ fields.map (fun p => (linkKey pre p,
              (fun _ : String => [PyVal.none]) p)) from rfl] at h
      rw [procLinkIds_ok hp (by simp) h, linkCols]
      simp [rawLinkVal]
    | some s =>
      rw [procLinkIds] at h
      cases hf : f s with
      | error e => rw [hf] at h; simp at h
      | ok ent =>
        rw [hf] at h
        simp only at h
        cases hlf : procLinkFields ent pre [] fields with
        | error e => rw [hlf] at h; simp at h
        | ok d1 =>
          rw [hlf] at h
          simp only at h
          have hd1 := procLinkFields_ok hlf
          rw [appendRow_fresh _ _ fields [] hp (by simp)] at hd1
          rw [hd1] at h
          rw [show ([] : PropsDict) ++ fields.map (fun p => (linkKey pre p, [linkValD ent p]))
              = ([] : PropsDict) ++ fields.map (fun p => (linkKey pre p,
                  (fun q : String => [linkValD ent q]) p)) from rfl] at h
          rw [procLinkIds_ok hp (by simp) h, linkCols]
          simp only [List.nil_append]
          apply List.map_congr_left
          intro p hpin
          simp [rawLinkVal, fval, hf]

theorem resetAuditVal_eq_spec (v : PyVal) : resetAuditVal v = specAuditNormalize v := by
  cases v <;> simp [resetAuditVal, specAuditNormalize, auditEmptyish]

theorem resetAuditVal_none : resetAuditVal PyVal.none = PyVal.none := by
  simp [resetAuditVal, PyVal.isTruthy]

theorem dedupColsAux_find {df : Df} :
    ∀ {seen : List String} {kv : String × List PyVal}, kv ∈ dedupColsAux seen df →
    kv.1 ∉ seen ∧ df.find? (fun c => c.1 == kv.1) = some kv := by
  induction df with
  | nil => intro seen kv h; simp [dedupColsAux] at h
  | cons c rest ih =>
    intro seen kv h
    rw [dedupColsAux] at h
    by_cases hs : c.1 ∈ seen
    · rw [if_pos hs] at h
      obtain ⟨h1, h2⟩ := ih h
      refine ⟨h1, ?_⟩
      rw [List.find?_cons_of_neg, h2]
      simp
      intro he
      rw [he] at hs
      exact h1 hs
    · rw [if_neg hs] at h
      rcases List.mem_cons.mp h with h1 | h1
      · rw [h1]
        refine ⟨hs, ?_⟩
        rw [List.find?_cons_of_pos]
        simp
      · obtain ⟨h2, h3⟩ := ih h1
        have h4 : kv.1 ≠ c.1 := fun he => h2 (he ▸ List.mem_cons_self c.1 seen)
        have h5 : kv.1 ∉ seen := fun he => h2 (List.mem_cons_of_mem c.1 he)
        refine ⟨h5, ?_⟩
        rw [List.find?_cons_of_neg, h3]
        simp
        exact fun he => h4 he.symm

theorem dedupColsAux_nodup (df : Df) :
    ∀ (seen : List String), ((dedupColsAux seen df).map (fun c => c.1)).Nodup
      ∧ ∀ k ∈ (dedupColsAux seen df).map (fun c => c.1), k ∉ seen := by
  induction df with
  | nil => intro seen; simp [dedupColsAux]
  | cons c rest ih =>
    intro seen
    rw [dedupColsAux]
    by_cases hs : c.1 ∈ seen
    · rw [if_pos hs]
      exact ih seen
    · rw [if_neg hs]
      obtain ⟨hn, hf⟩ := ih (c.1 :: seen)
      refine ⟨?_, ?_⟩
      · rw [List.map_cons, List.nodup_cons]
        refine ⟨?_, hn⟩
        intro hmem
        exact hf c.1 hmem (List.mem_cons_self c.1 seen)
      · intro k hk
        have hk2 : k = c.1 ∨ ∃ x, (k, x) ∈ dedupColsAux (c.1 :: seen) rest := by
          simpa using hk
        rcases hk2 with h1 | ⟨x, h1⟩
        · rw [h1]; exact hs
        · have hmm : k ∈ (dedupColsAux (c.1 :: seen) rest).map (fun c => c.1) :=
            List.mem_map.mpr ⟨(k, x), h1, rfl⟩
          exact fun he => hf k hmm (List.mem_cons_of_mem c.1 he)

theorem dedupColsAux_presence {df : Df} :
    ∀ {seen : List String} {k : String} {vs : List PyVal}, (k, vs) ∈ df →
    k ∈ seen ∨ ∃ vs', (k, vs') ∈ dedupColsAux seen df := by
  induction df with
  | nil => intro seen k vs h; simp at h
  | cons c rest ih =>
    intro seen k vs h
    rw [dedupColsAux]
    by_cases hs : c.1 ∈ seen
    · rw [if_pos hs]
      rcases List.mem_cons.mp h with h1 | h1
      · left
        have : k = c.1 := by rw [← h1]
        rw [this]
        exact hs
      · exact ih h1
    · rw [if_neg hs]
      rcases List.mem_cons.mp h with h1 | h1
      · right
        exact ⟨c.2, by rw [← h1]; simp⟩
      · rcases @ih (c.1 :: seen) k vs h1 with h2 | ⟨vs', h3⟩
        · rcases List.mem_cons.mp h2 with h3 | h3
          · right
            refine ⟨c.2, ?_⟩
            rw [h3]
            exact List.mem_cons_self (c.1, c.2) (dedupColsAux (c.1 :: seen) rest)
          · left; exact h3
        · right
          exact ⟨vs', List.mem_cons_of_mem c h3⟩

/-- Claim C1 counterexample: two consecutive projection calls of the same
report each create a fresh memoization dict, so the identifier fetched by
the first call is fetched again by the second call — both fetch traces
contain the identifier. -/
theorem crossCallMemoization_counterexample :
    (getPropsRun [some "/x/"] ["@id"] "p" c1Fetch).map (fun r => r.2.2)
        = Except.ok ["/x/"]
    ∧ (getPropsRun [some "/x/"] ["status"] "p" c1Fetch).map (fun r => r.2.2)
        = Except.ok ["/x/"] :=
  ⟨rfl, rfl⟩

/-- Claim C1 (amended): the fetch memoization dict is created afresh inside
each projection call and reused only within that call — within a single
call no identifier is passed to the remote fetch twice (the trace of
performed fetches has no duplicates). -/
theorem perCallMemoization_trace_nodup :
    ∀ (ids : List (Option String)) (fields : List String) (pre : String) (f : Fetch)
      (d : PropsDict) (c : Cache) (t : List String),
    getPropsRun ids fields pre f = Except.ok (d, c, t) → t.Nodup := by
  intro ids fields pre f d c t h
  unfold getPropsRun at h
  exact (procIds_trace (cacheOK_nil f) h).1.1

/-- Witness for the amended Claim C1 at a concrete input: a call that sees
the identifier `/a/` in a multi-identifier row and again as a later row
performs exactly the two fetches `/a/`, `/b/`, without duplicates. -/
theorem perCallMemoization_witness : (["/a/", "/b/"] : List String).Nodup :=
  perCallMemoization_trace_nodup [some "/a/, /b/", some "/a/"] ["x"] "p" c1WFetch
    [("p.x", [PyVal.list [PyVal.none, PyVal.none], PyVal.none])]
    [("/a/", []), ("/b/", [])] ["/a/", "/b/"] rfl

/-- Claim C2: in every projection call and every link-resolution call with a
non-empty field set, every produced column has exactly one row per input
element. -/
theorem projection_row_alignment :
    ∀ (ids : List (Option String)) (fields : List String) (pre : String) (f : Fetch),
    fields ≠ [] → fields.Nodup →
    (∀ d kv, get_props_from_ids ids fields pre f = Except.ok d → kv ∈ d →
        kv.2.length = ids.length)
    ∧ (∀ d kv, get_link_prop_ids_from_ids ids fields pre f = Except.ok d → kv ∈ d →
        kv.2.length = ids.length) := by
  intro ids fields pre f hne hnd
  constructor
  · intro d kv h hkv
    rw [get_props_from_ids_ok hnd h] at hkv
    unfold reset_empty_audits at hkv
    rcases List.mem_map.mp hkv with ⟨kv0, hkv0, hg⟩
    have hlen0 : kv.2.length = kv0.2.length := by
      by_cases ha : pyEndsWith kv0.1 "audit" = true
      · rw [if_pos ha] at hg
        rw [← hg]
        simp
      · rw [if_neg ha] at hg
        rw [← hg]
    rw [hlen0]
    cases ids with
    | nil => simp [projCols] at hkv0
    | cons oid rest =>
      rw [projCols] at hkv0
      rcases List.mem_map.mp hkv0 with ⟨p, hp, hpe⟩
      rw [← hpe]
      simp
  · intro d kv h hkv
    rw [get_link_prop_ids_from_ids_ok hnd h] at hkv
    cases ids with
    | nil => simp [linkCols] at hkv
    | cons oid rest =>
      rw [linkCols] at hkv
      rcases List.mem_map.mp hkv with ⟨p, hp, hpe⟩
      rw [← hpe]
      simp

/-- Witness for Claim C2 at a concrete input: one identifier, one field,
the produced column has one row. -/
theorem projection_row_alignment_witness :
    ([PyVal.str "/i/"] : List PyVal).length
      = ([some "/i/"] : List (Option String)).length :=
  (projection_row_alignment [some "/i/"] ["@id"] "q" c2WFetch (by simp) (by simp)).1
    [("q.@id", [PyVal.str "/i/"])] ("q.@id", [PyVal.str "/i/"]) rfl (by simp)

theorem getAtId_not_remote {x : PyVal} {e : LinkErr}
    (h : getAtId x = Except.error e) : ∀ err, e ≠ LinkErr.remote err := by
  intro err
  cases x with
  | dict kvs =>
    simp only [getAtId] at h
    cases hf : kvs.find? (fun kv => kv.1 == "@id") with
    | none =>
      rw [hf] at h
      simp only at h
      exact fun hc => LinkErr.noConfusion ((Except.error.inj h).trans hc)
    | some kv =>
      rw [hf] at h
      simp only at h
      obtain ⟨k1, v1⟩ := kv
      cases v1 <;> simp only at h <;>
        first
        | exact fun hc => LinkErr.noConfusion ((Except.error.inj h).trans hc)
        | exact absurd h (by simp)
  | none =>
    simp only [getAtId] at h
    exact fun hc => LinkErr.noConfusion ((Except.error.inj h).trans hc)
  | bool b =>
    simp only [getAtId] at h
    exact fun hc => LinkErr.noConfusion ((Except.error.inj h).trans hc)
  | num n =>
    simp only [getAtId] at h
    exact fun hc => LinkErr.noConfusion ((Except.error.inj h).trans hc)
  | str s =>
    simp only [getAtId] at h
    exact fun hc => LinkErr.noConfusion ((Except.error.inj h).trans hc)
  | list xs =>
    simp only [getAtId] at h
    exact fun hc => LinkErr.noConfusion ((Except.error.inj h).trans hc)

theorem asStr_not_remote {x : PyVal} {e : LinkErr}
    (h : asStr x = Except.error e) : ∀ err, e ≠ LinkErr.remote err := by
  intro err
  cases x <;> simp only [asStr] at h <;>
    first
    | exact fun hc => LinkErr.noConfusion ((Except.error.inj h).trans hc)
    | exact absurd h (by simp)

theorem mapM_not_remote {g : PyVal → Except LinkErr String}
    (hg : ∀ (x : PyVal) (e2 : LinkErr), g x = Except.error e2 →
      ∀ err, e2 ≠ LinkErr.remote err) :
    ∀ {xs : List PyVal} {e : LinkErr}, List.mapM g xs = Except.error e →
    ∀ err, e ≠ LinkErr.remote err := by
  intro xs
  induction xs with
  | nil =>
    intro e h err
    simp [List.mapM, List.mapM.loop, Pure.pure, Except.pure] at h
  | cons x rest ih =>
    intro e h err
    rw [List.mapM_cons] at h
    cases hx : g x with
    | error e1 =>
      rw [hx] at h
      have h2 : e1 = e := by simpa [Bind.bind, Except.bind] using h
      exact h2 ▸ hg x e1 hx err
    | ok b =>
      rw [hx] at h
      cases hrest : List.mapM g rest with
      | error e2 =>
        rw [hrest] at h
        have h2 : e2 = e := by simpa [Bind.bind, Except.bind] using h
        exact h2 ▸ ih hrest err
      | ok bs =>
        rw [hrest] at h
        simp [Bind.bind, Except.bind, Pure.pure, Except.pure] at h

theorem linkVal_not_remote {ent : Entity} {p : String} {e : LinkErr}
    (h : linkVal ent p = Except.error e) : ∀ err, e ≠ LinkErr.remote err := by
  intro err
  rw [linkVal] at h
  by_cases ht : (Entity.getD ent p).isTruthy = false
  · have hcond : (!(Entity.getD ent p).isTruthy) = true := by simp [ht]
    rw [if_pos hcond] at h
    simp at h
  · have ht2 : (Entity.getD ent p).isTruthy = true := by
      revert ht
      cases (Entity.getD ent p).isTruthy <;> simp
    have hcond : ¬((!(Entity.getD ent p).isTruthy) = true) := by simp [ht2]
    rw [if_neg hcond] at h
    cases hv : Entity.getD ent p with
    | none => rw [hv] at h; simp at h
    | bool b => rw [hv] at h; simp at h
    | num n => rw [hv] at h; simp at h
    | str s => rw [hv] at h; simp at h
    | dict kvs =>
      rw [hv] at h
      simp only at h
      cases hf : kvs.find? (fun kv => kv.1 == "@id") with
      | some kv => rw [hf] at h; simp at h
      | none =>
        rw [hf] at h
        simp only at h
        exact fun hc => LinkErr.noConfusion ((Except.error.inj h).trans hc)
    | list xs =>
      rw [hv] at h
      cases xs with
      | nil => simp at h
      | cons x0 rest =>
        cases x0 with
        | dict kvs0 =>
          simp only at h
          split at h
          · simp at h
          · rename_i e1 heq
            exact fun hc =>
              mapM_not_remote (fun x e2 h3 => getAtId_not_remote h3) heq err
                ((Except.error.inj h).trans hc)
        | none =>
          simp only at h
          split at h
          · simp at h
          · rename_i e1 heq
            exact fun hc =>
              mapM_not_remote (fun x e2 h3 => asStr_not_remote h3) heq err
                ((Except.error.inj h).trans hc)
        | bool b =>
          simp only at h
          split at h
          · simp at h
          · rename_i e1 heq
            exact fun hc =>
              mapM_not_remote (fun x e2 h3 => asStr_not_remote h3) heq err
                ((Except.error.inj h).trans hc)
        | num n =>
          simp only at h
          split at h
          · simp at h
          · rename_i e1 heq
            exact fun hc =>
              mapM_not_remote (fun x e2 h3 => asStr_not_remote h3) heq err
                ((Except.error.inj h).trans hc)
        | str s0 =>
          simp only at h
          split at h
          · simp at h
          · rename_i e1 heq
            exact fun hc =>
              mapM_not_remote (fun x e2 h3 => asStr_not_remote h3) heq err
                ((Except.error.inj h).trans hc)
        | list l0 =>
          simp only at h
          split at h
          · simp at h
          · rename_i e1 heq
            exact fun hc =>
              mapM_not_remote (fun x e2 h3 => asStr_not_remote h3) heq err
                ((Except.error.inj h).trans hc)

theorem procLinkFields_not_remote {ent : Entity} {pre : String} :
    ∀ {fields : List String} {d : PropsDict} {e : LinkErr},
    procLinkFields ent pre d fields = Except.error e → ∀ err, e ≠ LinkErr.remote err := by
  intro fields
  induction fields with
  | nil => intro d e h err; simp [procLinkFields] at h
  | cons p ps ih =>
    intro d e h err
    rw [procLinkFields] at h
    cases hlv : linkVal ent p with
    | error e1 =>
      rw [hlv] at h
      have h2 : e1 = e := by simpa using h
      exact h2 ▸ linkVal_not_remote hlv err
    | ok v =>
      rw [hlv] at h
      simp only at h
      exact ih h err

theorem procLinkIds_fetch_ok {f : Fetch} {fields : List String} {pre : String} :
    ∀ {ids : List (Option String)} {d d' : PropsDict},
    procLinkIds f fields pre ids d = Except.ok d' →
    ∀ oid ∈ ids, ∀ s, oid = some s → ∃ ent, f s = Except.ok ent := by
  intro ids
  induction ids with
  | nil => intro d d' _ oid hoid; simp at hoid
  | cons oid0 rest ih =>
    intro d d' h oid hoid s hs
    cases oid0 with
    | none =>
      rw [procLinkIds] at h
      rcases List.mem_cons.mp hoid with h1 | h1
      · rw [h1] at hs; exact absurd hs (by simp)
      · exact ih h oid h1 s hs
    | some s0 =>
      rw [procLinkIds] at h
      cases hf : f s0 with
      | error e => rw [hf] at h; simp at h
      | ok ent =>
        rw [hf] at h
        simp only at h
        cases hlf : procLinkFields ent pre d fields with
        | error e => rw [hlf] at h; simp at h
        | ok d1 =>
          rw [hlf] at h
          simp only at h
          rcases List.mem_cons.mp hoid with h1 | h1
          · rw [h1] at hs
            have hs0 : s = s0 := by simpa using hs.symm
            exact ⟨ent, hs0 ▸ hf⟩
          · exact ih h oid h1 s hs

theorem procLinkIds_err_remote {f : Fetch} {fields : List String} {pre : String} :
    ∀ {ids : List (Option String)} {d : PropsDict} {err : String},
    procLinkIds f fields pre ids d = Except.error (LinkErr.remote err) →
    ∃ oid ∈ ids, ∃ s, oid = some s ∧ f s = Except.error err := by
  intro ids
  induction ids with
  | nil => intro d err h; simp [procLinkIds] at h
  | cons oid0 rest ih =>
    intro d err h
    cases oid0 with
    | none =>
      rw [procLinkIds] at h
      obtain ⟨oid2, hmem, hrest⟩ := ih h
      exact ⟨oid2, by simp [hmem], hrest⟩
    | some s0 =>
      rw [procLinkIds] at h
      cases hf : f s0 with
      | error e =>
        rw [hf] at h
        have h2 : e = err := by simpa using h
        exact ⟨some s0, by simp, s0, rfl, h2 ▸ hf⟩
      | ok ent =>
        rw [hf] at h
        simp only at h
        cases hlf : procLinkFields ent pre d fields with
        | error e =>
          rw [hlf] at h
          have h2 : e = LinkErr.remote err := by simpa using h
          exact absurd h2 (procLinkFields_not_remote hlf err)
        | ok d1 =>
          rw [hlf] at h
          simp only at h
          obtain ⟨oid2, hmem, hrest⟩ := ih h
          exact ⟨oid2, by simp [hmem], hrest⟩

/-- Claim C3: remote fetch failures are not caught locally.  A projection
call that completes has successfully fetched every identifier its input
mentions, and a failing projection call surfaces the underlying transport
error of one of the mentioned identifiers verbatim; likewise a
link-resolution call that completes has successfully fetched every
non-null input identifier, and a link-resolution call that fails with a
transport error surfaces the failed fetch of one of its input identifiers
verbatim. -/
theorem fetch_error_propagation :
    ∀ (ids : List (Option String)) (fields : List String) (pre : String) (f : Fetch),
    fields ≠ [] →
    (∀ d, get_props_from_ids ids fields pre f = Except.ok d →
        ∀ oid ∈ ids, ∀ s, oid = some s → ∀ i ∈ mentionedIds s, ∃ e, f i = Except.ok e)
    ∧ (∀ err, get_props_from_ids ids fields pre f = Except.error err →
        ∃ oid ∈ ids, ∃ s, oid = some s ∧ ∃ i ∈ mentionedIds s, f i = Except.error err)
    ∧ (∀ d, get_link_prop_ids_from_ids ids fields pre f = Except.ok d →
        ∀ oid ∈ ids, ∀ s, oid = some s → ∃ ent, f s = Except.ok ent)
    ∧ (∀ err, get_link_prop_ids_from_ids ids fields pre f
          = Except.error (LinkErr.remote err) →
        ∃ oid ∈ ids, ∃ s, oid = some s ∧ f s = Except.error err) := by
  intro ids fields pre f hne
  refine ⟨?_, ?_, ?_, ?_⟩
  · intro d h oid hoid s hs i hi
    unfold get_props_from_ids at h
    cases hrun : getPropsRun ids fields pre f with
    | error e => rw [hrun] at h; simp [Except.map] at h
    | ok r =>
      obtain ⟨d0, c, t⟩ := r
      obtain ⟨_, hc, hmen⟩ := procIds_trace (cacheOK_nil f) hrun
      have hik : i ∈ keysOf c := hmen hne oid hoid s hs i hi
      rcases List.mem_map.mp hik with ⟨kv, hkv, hkv1⟩
      exact ⟨kv.2, hkv1 ▸ hc kv hkv⟩
  · intro err h
    unfold get_props_from_ids at h
    cases hrun : getPropsRun ids fields pre f with
    | ok r => rw [hrun] at h; simp [Except.map] at h
    | error e =>
      rw [hrun] at h
      have he : e = err := by simpa [Except.map] using h
      exact procIds_err (he ▸ hrun)
  · intro d h
    unfold get_link_prop_ids_from_ids at h
    exact procLinkIds_fetch_ok h
  · intro err h
    unfold get_link_prop_ids_from_ids at h
    exact procLinkIds_err_remote h

/-- Witness for Claim C3 at concrete inputs: a failing projection call
surfaces the transport error of its mentioned identifier, and a
link-resolution call whose second row's fetch raises surfaces that
transport error. -/
theorem fetch_error_propagation_witness :
    (∃ oid ∈ ([some "/bad/"] : List (Option String)), ∃ s, oid = some s
      ∧ ∃ i ∈ mentionedIds s, c3WFetch i = Except.error "boom")
    ∧ (∃ oid ∈ ([some "/ok/", some "/bad/"] : List (Option String)), ∃ s, oid = some s
      ∧ c3WFetch s = Except.error "boom") :=
  ⟨((fetch_error_propagation [some "/bad/"] ["x"] "p" c3WFetch (by simp)).2.1) "boom" rfl,
   ((fetch_error_propagation [some "/ok/", some "/bad/"] ["x"] "p" c3WFetch
      (by simp)).2.2.2) "boom" rfl⟩

/-- Claim C4 counterexample: for the requested field `audit` on the
multi-identifier row `/a/, /b/` with empty audits on both sub-identifiers,
the projection produces None for that row — not an ordered list of length
two as claimed — because the audit normalization rewrote it. -/
theorem multiId_row_counterexample :
    get_props_from_ids [some "/a/, /b/"] ["audit"] "x" c4Fetch
        = Except.ok [("x.audit", [PyVal.none])]
    ∧ ∀ xs : List PyVal, PyVal.none ≠ PyVal.list xs :=
  ⟨rfl, fun _ h => PyVal.noConfusion h⟩

/-- Claim C4 (amended): a comma-separated multi-identifier row yields, for
each requested field, the ordered list of the sub-identifiers' field
values (one entry per sub-identifier, in order) — except that when the
column name ends in `audit` and every entry of that list is empty, the
audit normalization rewrites the row value to None. -/
theorem multiId_row_projection :
    ∀ (ids : List (Option String)) (fields : List String) (pre : String) (f : Fetch)
      (d : PropsDict) (i : Nat) (s : String) (p : String) (vs : List PyVal),
    fields.Nodup →
    get_props_from_ids ids fields pre f = Except.ok d →
    ids[i]? = some (some s) →
    ((pySplitCS s).length == 1) = false →
    p ∈ fields → (pre ++ "." ++ p, vs) ∈ d →
    ((pySplitCS s).map (fun j => Entity.getD (fval f j) p)).length = (pySplitCS s).length
    ∧ (∀ j : Nat, ((pySplitCS s).map (fun j2 => Entity.getD (fval f j2) p))[j]?
        = ((pySplitCS s)[j]?).map (fun j2 => Entity.getD (fval f j2) p))
    ∧ vs[i]? = some (
        if pyEndsWith (pre ++ "." ++ p) "audit"
            && ((pySplitCS s).map (fun j => Entity.getD (fval f j) p)).all
                (fun a => !a.isTruthy)
        then PyVal.none
        else PyVal.list ((pySplitCS s).map (fun j => Entity.getD (fval f j) p))) := by
  intro ids fields pre f d i s p vs hnd h hgi hlen hpf hkv
  refine ⟨by simp, by intro j; simp, ?_⟩
  rw [get_props_from_ids_ok hnd h] at hkv
  unfold reset_empty_audits at hkv
  rcases List.mem_map.mp hkv with ⟨kv0, hkv0, hg⟩
  cases ids with
  | nil => simp at hgi
  | cons oid rest =>
    rw [projCols] at hkv0
    rcases List.mem_map.mp hkv0 with ⟨p', hp', hpe⟩
    rw [← hpe] at hg
    have hraw : rawPropVal f p (some s)
        = PyVal.list ((pySplitCS s).map (fun j => Entity.getD (fval f j) p)) := by
      rw [rawPropVal]
      rw [if_neg (by simp [hlen])]
    by_cases ha : pyEndsWith (pre ++ "." ++ p') "audit" = true
    · rw [if_pos ha] at hg
      have hp'q : p' = p := propKey_inj (congrArg Prod.fst hg)
      rw [hp'q] at hg ha
      have hvs : vs = ((oid :: rest).map (rawPropVal f p)).map resetAuditVal :=
        (congrArg Prod.snd hg).symm
      rw [hvs]
      rw [List.getElem?_map, List.getElem?_map, hgi]
      simp only [Option.map_some']
      rw [hraw]
      rw [resetAuditVal]
      simp only [ha, Bool.true_and]
    · rw [if_neg ha] at hg
      have hp'q : p' = p := propKey_inj (congrArg Prod.fst hg)
      rw [hp'q] at hg ha
      have hvs : vs = (oid :: rest).map (rawPropVal f p) :=
        (congrArg Prod.snd hg).symm
      rw [hvs]
      rw [List.getElem?_map, hgi]
      simp only [Option.map_some']
      rw [hraw]
      simp only [Bool.not_eq_true] at ha
      rw [ha]
      simp

/-- Witness for the amended Claim C4 at a concrete input: the two-identifier
row projects to the ordered two-entry list of field values. -/
theorem multiId_row_projection_witness :
    ([PyVal.list [PyVal.str "v", PyVal.str "v"]] : List PyVal)[0]?
      = some (PyVal.list [PyVal.str "v", PyVal.str "v"]) := by
  have h := (multiId_row_projection [some "/a/, /b/"] ["st"] "x" c4WFetch
      [("x.st", [PyVal.list [PyVal.str "v", PyVal.str "v"]])] 0 "/a/, /b/" "st"
      [PyVal.list [PyVal.str "v", PyVal.str "v"]]
      (by simp) rfl rfl rfl (by simp) (by simp)).2.2
  exact h.trans rfl

/-- Python str elements map through the join check unchanged. -/
theorem asStr_mapM : ∀ (ss : List String),
    List.mapM asStr (ss.map PyVal.str) = Except.ok ss := by
  intro ss
  induction ss with
  | nil => rfl
  | cons s rest ih =>
    rw [List.map_cons, List.mapM_cons, ih]
    rfl

/-- Claim C5 counterexample: the link field holds the scalar string "",
and the resolver emits None for it (Python falsiness, line 139) instead of
emitting the scalar string unchanged as claimed. -/
theorem linkVal_counterexample :
    get_link_prop_ids_from_ids [some "/x/"] ["p"] "pre" c5Fetch
        = Except.ok [("pre.p.@id", [PyVal.none])]
    ∧ PyVal.none ≠ PyVal.str "" :=
  ⟨rfl, fun h => PyVal.noConfusion h⟩

/-- Claim C5 (amended): per link field of a fetched entity — an absent or
otherwise empty value (None, empty list, empty string, empty object)
yields None; a non-empty list whose first element is a nested object
yields the comma-joined identifiers extracted from each element; a
non-empty list of scalar strings yields the comma-joined strings; a
non-empty nested object yields its identifier value; a non-empty scalar
string is emitted unchanged; every produced column is named
`prefix.field.@id` and holds the per-entity link value in each row. -/
theorem linkVal_cases :
    (∀ (ent : Entity) (p : String),
      ((Entity.getD ent p).isTruthy = false → linkVal ent p = Except.ok PyVal.none)
      ∧ (∀ x0 rest ss, Entity.getD ent p = PyVal.list (x0 :: rest) →
          (∃ kvs, x0 = PyVal.dict kvs) →
          (x0 :: rest).mapM getAtId = Except.ok ss →
          linkVal ent p = Except.ok (PyVal.str (pyJoin ", " ss)))
      ∧ (∀ s0 ss, Entity.getD ent p = PyVal.list (PyVal.str s0 :: ss.map PyVal.str) →
          linkVal ent p = Except.ok (PyVal.str (pyJoin ", " (s0 :: ss))))
      ∧ (∀ kvs kv, Entity.getD ent p = PyVal.dict kvs →
          kvs.find? (fun kv2 => kv2.1 == "@id") = some kv →
          linkVal ent p = Except.ok kv.2)
      ∧ (∀ s0, Entity.getD ent p = PyVal.str s0 → s0 ≠ "" →
          linkVal ent p = Except.ok (PyVal.str s0)))
    ∧ (∀ (ids : List (Option String)) (fields : List String) (pre : String)
        (f : Fetch) (d : PropsDict),
        fields.Nodup → get_link_prop_ids_from_ids ids fields pre f = Except.ok d →
        (∀ kv ∈ d, ∃ p ∈ fields, kv.1 = pre ++ "." ++ p ++ ".@id")
        ∧ (∀ (i : Nat) (s : String) (ent : Entity) (p : String) (vs : List PyVal),
            ids[i]? = some (some s) → f s = Except.ok ent →
            p ∈ fields → (linkKey pre p, vs) ∈ d →
            vs[i]? = some (linkValD ent p))) := by
  constructor
  · intro ent p
    refine ⟨?_, ?_, ?_, ?_, ?_⟩
    · intro h
      rw [linkVal]
      simp only [h]
      rfl
    · intro x0 rest ss hv hx0 hmap
      obtain ⟨kvs, hkd⟩ := hx0
      rw [linkVal]
      simp only [hv]
      rw [show (PyVal.list (x0 :: rest)).isTruthy = true by simp [PyVal.isTruthy]]
      simp only [Bool.not_true, Bool.false_eq_true, if_false]
      rw [hkd] at hmap ⊢
      rw [hmap]
    · intro s0 ss hv
      rw [linkVal]
      simp only [hv]
      rw [show (PyVal.list (PyVal.str s0 :: ss.map PyVal.str)).isTruthy = true by
        simp [PyVal.isTruthy]]
      simp only [Bool.not_true, Bool.false_eq_true, if_false]
      have hm : List.mapM asStr (PyVal.str s0 :: ss.map PyVal.str)
          = Except.ok (s0 :: ss) := by
        rw [show (PyVal.str s0 :: ss.map PyVal.str) = (s0 :: ss).map PyVal.str from rfl]
        exact asStr_mapM (s0 :: ss)
      rw [hm]
    · intro kvs kv hv hfind
      have hne : kvs ≠ [] := by
        intro he
        rw [he] at hfind
        simp at hfind
      rw [linkVal]
      simp only [hv]
      rw [show (PyVal.dict kvs).isTruthy = true by
        simp [PyVal.isTruthy, hne]]
      simp only [Bool.not_true, Bool.false_eq_true, if_false]
      rw [hfind]
    · intro s0 hv hne
      have hd : s0.data ≠ [] := by
        intro he
        apply hne
        cases s0
        simp at he
        rw [he]
      rw [linkVal]
      simp only [hv]
      rw [show (PyVal.str s0).isTruthy = true by
        simp [PyVal.isTruthy, hd]]
      simp only [Bool.not_true, Bool.false_eq_true, if_false]
  · intro ids fields pre f d hnd h
    have hd := get_link_prop_ids_from_ids_ok hnd h
    constructor
    · intro kv hkv
      rw [hd] at hkv
      cases ids with
      | nil => simp [linkCols] at hkv
      | cons oid rest =>
        rw [linkCols] at hkv
        rcases List.mem_map.mp hkv with ⟨p, hp, hpe⟩
        exact ⟨p, hp, by rw [← hpe]; rfl⟩
    · intro i s ent p vs hgi hf hpf hkv
      rw [hd] at hkv
      cases ids with
      | nil => simp at hgi
      | cons oid rest =>
        rw [linkCols] at hkv
        rcases List.mem_map.mp hkv with ⟨p', hp', hpe⟩
        have hpq : p' = p := linkKey_inj (congrArg Prod.fst hpe)
        rw [hpq] at hpe
        have hvs : vs = (oid :: rest).map (rawLinkVal f p) :=
          (congrArg Prod.snd hpe).symm
        rw [hvs, List.getElem?_map, hgi]
        simp only [Option.map_some']
        simp [rawLinkVal, fval, hf]

/-- Witness for the amended Claim C5 at concrete inputs: a non-empty scalar
string is emitted unchanged, and a two-object link list resolves to the
comma-joined identifier string in the produced `.@id` column. -/
theorem linkVal_cases_witness :
    linkVal [("q", PyVal.str "/t/")] "q" = Except.ok (PyVal.str "/t/")
    ∧ ([PyVal.str "/s1/, /s2/"] : List PyVal)[0]?
        = some (linkValD [("q", PyVal.list [PyVal.dict [("@id", PyVal.str "/s1/")],
            PyVal.dict [("@id", PyVal.str "/s2/")]])] "q") := by
  constructor
  · exact (linkVal_cases.1 [("q", PyVal.str "/t/")] "q").2.2.2.2 "/t/" rfl (by decide)
  · exact (linkVal_cases.2 [some "/x/"] ["q"] "pre" c5WFetch
      [("pre.q.@id", [PyVal.str "/s1/, /s2/"])] (by simp) rfl).2 0 "/x/"
      [("q", PyVal.list [PyVal.dict [("@id", PyVal.str "/s1/")],
          PyVal.dict [("@id", PyVal.str "/s2/")]])] "q"
      [PyVal.str "/s1/, /s2/"] rfl rfl (by simp) (List.mem_singleton.mpr rfl)

/-- Claim C6: the status-color function maps the string `released` and any
list all of whose elements are `released` to the highlight color, the
string `in progress` to the second color, and everything else (None
included) to the neutral color. -/
theorem status_color_mapping :
    ∀ x : PyVal,
    (x = PyVal.str "released" → status_color x = "background-color: lightgreen")
    ∧ (∀ xs, x = PyVal.list xs → (∀ e ∈ xs, e = PyVal.str "released") →
        status_color x = "background-color: lightgreen")
    ∧ (x = PyVal.str "in progress" → status_color x = "background-color: grey")
    ∧ (x ≠ PyVal.str "released" →
        (∀ xs, x = PyVal.list xs → ∃ e ∈ xs, e ≠ PyVal.str "released") →
        x ≠ PyVal.str "in progress" →
        status_color x = "background-color: white") := by
  intro x
  refine ⟨?_, ?_, ?_, ?_⟩
  · intro h
    rw [h]
    rfl
  · intro xs hx hall
    have hall2 : xs.all (fun i => pyEq i (PyVal.str "released")) = true := by
      rw [List.all_eq_true]
      intro e he
      exact pyEq_str_iff.mpr (hall e he)
    rw [hx]
    simp [status_color, pyEq, hall2]
  · intro h
    rw [h]
    rfl
  · intro hne1 hlist hne2
    cases x with
    | str s =>
      have h1 : (s == "released") = false := by
        simp only [beq_eq_false_iff_ne, ne_eq]
        intro he
        exact hne1 (by rw [he])
      have h2 : (s == "in progress") = false := by
        simp only [beq_eq_false_iff_ne, ne_eq]
        intro he
        exact hne2 (by rw [he])
      simp [status_color, pyEq, h1, h2]
    | list xs =>
      obtain ⟨e, he, hene⟩ := hlist xs rfl
      have hall : xs.all (fun i => pyEq i (PyVal.str "released")) = false := by
        rw [List.all_eq_false]
        exact ⟨e, he, fun hp => hene (pyEq_str_iff.mp hp)⟩
      simp [status_color, pyEq, hall]
    | none => rfl
    | bool b => rfl
    | num n => rfl
    | dict kvs => rfl

/-- Witness for Claim C6 at concrete inputs: all four mapping cases
evaluated. -/
theorem status_color_mapping_witness :
    status_color (PyVal.str "released") = "background-color: lightgreen"
    ∧ status_color (PyVal.list [PyVal.str "released", PyVal.str "released"])
        = "background-color: lightgreen"
    ∧ status_color (PyVal.str "in progress") = "background-color: grey"
    ∧ status_color PyVal.none = "background-color: white" :=
  ⟨(status_color_mapping (PyVal.str "released")).1 rfl,
   (status_color_mapping (PyVal.list [PyVal.str "released", PyVal.str "released"])).2.1
     [PyVal.str "released", PyVal.str "released"] rfl (by
       intro e he
       rcases List.mem_cons.mp he with h | h
       · exact h
       · simpa using h),
   (status_color_mapping (PyVal.str "in progress")).2.2.1 rfl,
   (status_color_mapping PyVal.none).2.2.2 (fun h => PyVal.noConfusion h)
     (fun xs h => PyVal.noConfusion h) (fun h => PyVal.noConfusion h)⟩

/-- Claim C7 counterexample: the concatenated input holds two columns named
`a`, the first all-null.  Dropping all-null columns runs before the
de-duplication, so the assembled output holds the second occurrence's
values, not the first occurrence's. -/
theorem output_df_counterexample :
    (output_df [[("a", [PyVal.none])], [("a", [PyVal.str "v"])]]).cols
        = [("a", [PyVal.str "v"])]
    ∧ ([PyVal.str "v"] : List PyVal) ≠ [PyVal.none] :=
  ⟨rfl, by
    intro h
    injection h with h1 _
    exact PyVal.noConfusion h1⟩

/-- Claim C7 (amended): in every table-assembly call, a column whose rows
are all null is absent from the output; and in every call with at least
two input tables, the output has pairwise-distinct column names, each
output column holds the values of the first occurrence of its name that
survives the all-null drop, and every surviving name is present. -/
theorem output_df_dedup :
    ∀ dfs : List Df,
    (∀ kv ∈ (output_df dfs).cols, kv.2.all (fun v => pyEq v PyVal.none) = false)
    ∧ (2 ≤ dfs.length →
        (((output_df dfs).cols.map (fun c => c.1)).Nodup
        ∧ (∀ kv ∈ (output_df dfs).cols,
            (dropAllNull dfs.flatten).find? (fun c => c.1 == kv.1) = some kv)
        ∧ (∀ k vs, (k, vs) ∈ dropAllNull dfs.flatten →
            ∃ vs', (k, vs') ∈ (output_df dfs).cols))) := by
  intro dfs
  cases dfs with
  | nil =>
    constructor
    · intro kv hkv
      simp [output_df, dedupCols, dropAllNull, dedupColsAux] at hkv
    · intro h2
      simp at h2
  | cons d1 rest =>
    cases rest with
    | nil =>
      constructor
      · intro kv hkv
        have hm : kv ∈ dropAllNull d1 := hkv
        have := (List.mem_filter.mp hm).2
        simpa using this
      · intro h2
        simp at h2
    | cons d2 rest2 =>
      have hcols : (output_df (d1 :: d2 :: rest2)).cols
          = dedupColsAux [] (dropAllNull (d1 :: d2 :: rest2).flatten) := rfl
      constructor
      · intro kv hkv
        rw [hcols] at hkv
        have hfind := (dedupColsAux_find hkv).2
        have hm := List.mem_of_find?_eq_some hfind
        have := (List.mem_filter.mp hm).2
        simpa using this
      · intro h2
        refine ⟨?_, ?_, ?_⟩
        · rw [hcols]
          exact (dedupColsAux_nodup (dropAllNull (d1 :: d2 :: rest2).flatten) []).1
        · intro kv hkv
          rw [hcols] at hkv
          exact (dedupColsAux_find hkv).2
        · intro k vs hm
          rcases @dedupColsAux_presence (dropAllNull (d1 :: d2 :: rest2).flatten)
              [] k vs hm with h3 | ⟨vs', h3⟩
          · simp at h3
          · exact ⟨vs', by rw [hcols]; exact h3⟩

/-- Witness for the amended Claim C7 at a concrete input: two tables with a
duplicated column name and an all-null column; the all-null column is
dropped, names are unique, each kept column is the first surviving
occurrence, and the surviving name is present. -/
theorem output_df_dedup_witness :
    (∀ kv ∈ (output_df [[("a", [PyVal.str "v"]), ("z", [PyVal.none])],
        [("a", [PyVal.str "w"])]]).cols,
      kv.2.all (fun v => pyEq v PyVal.none) = false)
    ∧ (((output_df [[("a", [PyVal.str "v"]), ("z", [PyVal.none])],
        [("a", [PyVal.str "w"])]]).cols.map (fun c => c.1)).Nodup) := by
  have h := output_df_dedup [[("a", [PyVal.str "v"]), ("z", [PyVal.none])],
      [("a", [PyVal.str "w"])]]
  exact ⟨h.1, (h.2 (by simp)).1⟩

/-- Claim C8: every produced column of a projection call whose name ends in
`audit` holds the normalized values: each row is the spec-side
normalization (empty or all-empty-nested becomes null, everything else
kept) of the raw projected value of that row. -/
theorem audit_column_normalization :
    ∀ (ids : List (Option String)) (fields : List String) (pre : String) (f : Fetch)
      (d : PropsDict) (k : String) (vs : List PyVal),
    fields.Nodup →
    get_props_from_ids ids fields pre f = Except.ok d →
    (k, vs) ∈ d → pyEndsWith k "audit" = true →
    ∃ p ∈ fields, k = pre ++ "." ++ p
      ∧ vs = ids.map (fun oid => specAuditNormalize (rawPropVal f p oid)) := by
  intro ids fields pre f d k vs hnd h hkv hk
  rw [get_props_from_ids_ok hnd h] at hkv
  unfold reset_empty_audits at hkv
  rcases List.mem_map.mp hkv with ⟨kv0, hkv0, hg⟩
  cases ids with
  | nil => simp [projCols] at hkv0
  | cons oid rest =>
    rw [projCols] at hkv0
    rcases List.mem_map.mp hkv0 with ⟨p, hp, hpe⟩
    rw [← hpe] at hg
    by_cases ha : pyEndsWith (pre ++ "." ++ p) "audit" = true
    · rw [if_pos ha] at hg
      have hkeq : pre ++ "." ++ p = k := congrArg Prod.fst hg
      have hvs : ((oid :: rest).map (rawPropVal f p)).map resetAuditVal = vs :=
        congrArg Prod.snd hg
      refine ⟨p, hp, hkeq.symm, ?_⟩
      rw [← hvs, List.map_map]
      apply List.map_congr_left
      intro oid2 _
      simp [Function.comp, resetAuditVal_eq_spec]
    · rw [if_neg ha] at hg
      have hkeq : pre ++ "." ++ p = k := congrArg Prod.fst hg
      rw [hkeq] at ha
      exact absurd hk ha

/-- Witness for Claim C8 at a concrete input: the audit column equals the
normalization of the raw projected values (a non-empty audit is kept). -/
theorem audit_column_normalization_witness :
    ∃ p ∈ (["audit"] : List String), "x.audit" = "x" ++ "." ++ p
      ∧ ([PyVal.dict [("W", PyVal.str "x")]] : List PyVal)
          = ([some "/a/"] : List (Option String)).map
              (fun oid => specAuditNormalize (rawPropVal c8WFetch p oid)) :=
  audit_column_normalization [some "/a/"] ["audit"] "x" c8WFetch
    [("x.audit", [PyVal.dict [("W", PyVal.str "x")]])] "x.audit"
    [PyVal.dict [("W", PyVal.str "x")]] (by simp) rfl (by simp) rfl

/-- Claim C9: a null input element at row i makes every column produced by
the projection call and by the link-resolution call hold null at row i. -/
theorem null_row_projection :
    ∀ (ids : List (Option String)) (fields : List String) (pre : String) (f : Fetch)
      (i : Nat), fields.Nodup → ids[i]? = some Option.none →
    (∀ d kv, get_props_from_ids ids fields pre f = Except.ok d → kv ∈ d →
        kv.2[i]? = some PyVal.none)
    ∧ (∀ d kv, get_link_prop_ids_from_ids ids fields pre f = Except.ok d → kv ∈ d →
        kv.2[i]? = some PyVal.none) := by
  intro ids fields pre f i hnd hgi
  constructor
  · intro d kv h hkv
    rw [get_props_from_ids_ok hnd h] at hkv
    unfold reset_empty_audits at hkv
    rcases List.mem_map.mp hkv with ⟨kv0, hkv0, hg⟩
    cases ids with
    | nil => simp at hgi
    | cons oid rest =>
      rw [projCols] at hkv0
      rcases List.mem_map.mp hkv0 with ⟨p, hp, hpe⟩
      rw [← hpe] at hg
      by_cases ha : pyEndsWith (pre ++ "." ++ p) "audit" = true
      · rw [if_pos ha] at hg
        have hvs : kv.2 = ((oid :: rest).map (rawPropVal f p)).map resetAuditVal :=
          (congrArg Prod.snd hg).symm
        rw [hvs, List.getElem?_map, List.getElem?_map, hgi]
        simp only [Option.map_some']
        rw [show rawPropVal f p Option.none = PyVal.none from rfl, resetAuditVal_none]
      · rw [if_neg ha] at hg
        have hvs : kv.2 = (oid :: rest).map (rawPropVal f p) :=
          (congrArg Prod.snd hg).symm
        rw [hvs, List.getElem?_map, hgi]
        simp only [Option.map_some']
        rw [show rawPropVal f p Option.none = PyVal.none from rfl]
  · intro d kv h hkv
    rw [get_link_prop_ids_from_ids_ok hnd h] at hkv
    cases ids with
    | nil => simp at hgi
    | cons oid rest =>
      rw [linkCols] at hkv
      rcases List.mem_map.mp hkv with ⟨p, hp, hpe⟩
      have hvs : kv.2 = (oid :: rest).map (rawLinkVal f p) :=
        (congrArg Prod.snd hpe).symm
      rw [hvs, List.getElem?_map, hgi]
      simp only [Option.map_some']
      rw [show rawLinkVal f p Option.none = PyVal.none from rfl]

/-- Witness for Claim C9 at a concrete input: the single null input row
makes the produced column hold null at row 0. -/
theorem null_row_projection_witness :
    ([PyVal.none] : List PyVal)[0]? = some PyVal.none :=
  (null_row_projection [Option.none] ["s"] "x" c9WFetch 0 (by simp) rfl).1
    [("x.s", [PyVal.none])] ("x.s", [PyVal.none]) rfl (by simp)

/-- Claim C10: the audit normalization is a frame: a column whose name
does not end in `audit` is returned unchanged (same position, name and
values), and inside an audit column every row whose value is not empty
(and not an all-empty nested list) is returned unchanged. -/
theorem reset_empty_audits_frame :
    ∀ (d : PropsDict) (i : Nat) (k : String) (vs : List PyVal),
    d[i]? = some (k, vs) →
    (pyEndsWith k "audit" = false → (reset_empty_audits d)[i]? = some (k, vs))
    ∧ (pyEndsWith k "audit" = true →
        (reset_empty_audits d)[i]? = some (k, vs.map resetAuditVal)
        ∧ ∀ (j : Nat) (v : PyVal), vs[j]? = some v → auditEmptyish v = false →
            (vs.map resetAuditVal)[j]? = some v) := by
  intro d i k vs h
  constructor
  · intro hk
    unfold reset_empty_audits
    rw [List.getElem?_map, h]
    simp only [Option.map_some']
    rw [if_neg (by simp [hk])]
  · intro hk
    constructor
    · unfold reset_empty_audits
      rw [List.getElem?_map, h]
      simp only [Option.map_some']
      rw [if_pos hk]
    · intro j v hj hv
      rw [List.getElem?_map, hj]
      simp only [Option.map_some']
      rw [resetAuditVal_eq_spec, specAuditNormalize, if_neg (by simp [hv])]

/-- Witness for Claim C10 at a concrete input: a non-audit column is
returned unchanged by the audit normalization. -/
theorem reset_empty_audits_frame_witness :
    (reset_empty_audits [("c.status", [PyVal.str "released"])])[0]?
        = some ("c.status", [PyVal.str "released"]) :=
  (reset_empty_audits_frame [("c.status", [PyVal.str "released"])] 0 "c.status"
      [PyVal.str "released"] rfl).1 rfl
